import Mathlib

/-!
Verification development for a grid-based multi-agent path finding (MAPF)
engine: a time-expanded constrained single-agent A* search and a
Conflict-Based Search (CBS) driver over constraint-tree nodes.

The embedding follows `search/algorithms.py`: the class `State` becomes the
inductive `State` (the parent back-link becomes an optional sub-node), the
classes `AStar`, `CBSState` and `CBS` become functions over explicit data.
Python dictionaries become association lists, Python sets become lists with
membership up to the relevant equality, and the `heapq` priority queue is
modelled as a list into which pushes append and from which a pop removes the
leftmost least-cost element.  Unbounded loops take an explicit fuel
parameter; a result of `none` means the fuel ran out.
-/

namespace Mapf

/-- Space-time search state: coordinates x, y, timestep g, priority cost, and
an optional parent back-link forming a chain to the start state. -/
inductive State : Type where
  | mk (x y : Int) (g : Nat) (cost : Nat) (parent : Option State)

/-- Decidable equality of states, by recursion along the parent chain. -/
def State.decEq : (a b : State) → Decidable (a = b)
  | .mk x y g c none, .mk x' y' g' c' none =>
    if h : x = x' ∧ y = y' ∧ g = g' ∧ c = c' then
      isTrue (by obtain ⟨h1, h2, h3, h4⟩ := h; subst h1; subst h2; subst h3; subst h4; rfl)
    else
      isFalse (by intro hh; injection hh; simp_all)
  | .mk x y g c none, .mk x' y' g' c' (some _) =>
    isFalse (by intro hh; injection hh; simp_all)
  | .mk x y g c (some _), .mk x' y' g' c' none =>
    isFalse (by intro hh; injection hh; simp_all)
  | .mk x y g c (some p), .mk x' y' g' c' (some p') =>
    if h : x = x' ∧ y = y' ∧ g = g' ∧ c = c' then
      match State.decEq p p' with
      | isTrue hp => isTrue (by
          obtain ⟨h1, h2, h3, h4⟩ := h
          subst h1; subst h2; subst h3; subst h4; subst hp; rfl)
      | isFalse hp => isFalse (by intro hh; injection hh; simp_all)
    else
      isFalse (by intro hh; injection hh; simp_all)

instance : DecidableEq State := State.decEq

/-- Coordinate x of a state. -/
def State.x : State → Int
  | .mk x _ _ _ _ => x

/-- Coordinate y of a state. -/
def State.y : State → Int
  | .mk _ y _ _ _ => y

/-- Timestep g of a state. -/
def State.g : State → Nat
  | .mk _ _ g _ _ => g

/-- Priority cost of a state. -/
def State.cost : State → Nat
  | .mk _ _ _ c _ => c

/-- Parent back-link of a state. -/
def State.parent : State → Option State
  | .mk _ _ _ _ p => p

/-- Constructor mirroring the Python initializer: g, cost are zero and the
parent link is absent. -/
def State.init (x y : Int) : State := .mk x y 0 0 none

/-- Functional update of the g field (the Python setter mutates in place). -/
def State.set_g : State → Nat → State
  | .mk x y _ c p, g => .mk x y g c p

/-- Functional update of the cost field. -/
def State.set_cost : State → Nat → State
  | .mk x y g _ p, c => .mk x y g c p

/-- Functional update of the parent field; the search always passes an actual
parent node. -/
def State.set_parent : State → State → State
  | .mk x y g c _, p => .mk x y g c (some p)

/-- Equality test of the Python class: two states are equal iff x, y and g
all match. -/
def State.eqState (a b : State) : Bool :=
  a.x == b.x && a.y == b.y && a.g == b.g

/-- Goal test: only the coordinates are compared, the timestep is ignored. -/
def State.is_goal (s goal : State) : Bool :=
  s.x == goal.x && s.y == goal.y

/-- Manhattan-distance heuristic between a state and a target state. -/
def State.get_heuristic (s target : State) : Nat :=
  (s.x - target.x).natAbs + (s.y - target.y).natAbs

/-- Dedup key of a state: the encoding (y * mapWidth + x, g) used as the key
of the CLOSED mapping. -/
def hashKey (mapWidth : Int) (s : State) : Int × Nat :=
  (s.y * mapWidth + s.x, s.g)

/-- Per-agent constraint table: association list from a cell to the list of
forbidden timesteps at that cell (a Python dict from cell to a set). -/
def Cons : Type := List ((Int × Int) × List Nat)

instance : DecidableEq Cons := by
  unfold Cons
  infer_instance

/-- Lookup of the forbidden-timestep set of a cell. -/
def consLookup (cons : Cons) (pos : Int × Int) : Option (List Nat) :=
  match cons.find? (fun e => e.1 == pos) with
  | some e => some e.2
  | none => none

/-- Whether the cell is forbidden for this agent at timestep t. -/
def constrainedAt (cons : Cons) (pos : Int × Int) (t : Nat) : Bool :=
  match consLookup cons pos with
  | some ts => ts.contains t
  | none => false

/-- Grid map contract consumed by the engine: extents plus the set of
permanently blocked cells. -/
structure GridMap : Type where
  width : Int
  height : Int
  blockedCells : List (Int × Int)
deriving DecidableEq

/-- Whether a cell is permanently impassable. -/
def GridMap.isBlockedAt (m : GridMap) (pos : Int × Int) : Bool :=
  m.blockedCells.contains pos

/-- Whether a cell lies inside the map bounds. -/
def GridMap.inBounds (m : GridMap) (pos : Int × Int) : Bool :=
  0 ≤ pos.1 && pos.1 < m.width && 0 ≤ pos.2 && pos.2 < m.height

/-- The five moves of an agent: the four cardinal moves plus the wait
action. -/
def moveOffsets : List (Int × Int) :=
  [(1, 0), (-1, 0), (0, 1), (0, -1), (0, 0)]

/-- Modelled from the spec: the successor generation of the excluded
map/environment module (`map.successors(node, constraints)` in the search
code is not part of the given sources).  From a state at time g it generates
the four cardinal moves plus the wait action, each advancing time to g + 1,
and prunes a successor whose destination cell is outside the map bounds, is
permanently blocked terrain, or whose (cell, g + 1) pair appears in the
forbidden set of this agent. -/
def GridMap.successors (m : GridMap) (node : State) (cons : Cons) : List State :=
  (moveOffsets.filterMap fun d =>
    let dest : Int × Int := (node.x + d.1, node.y + d.2)
    if m.inBounds dest && !m.isBlockedAt dest && !constrainedAt cons dest (node.g + 1) then
      some ((State.init dest.1 dest.2).set_g (node.g + 1))
    else
      none)

/-- Push into the OPEN queue: the heap is modelled as a list into which a
push appends. -/
def heappush (l : List State) (s : State) : List State := l ++ [s]

/-- Pop from the OPEN queue: removes the leftmost element of least cost. -/
def popMin : List State → Option (State × List State)
  | [] => none
  | x :: xs =>
    match popMin xs with
    | none => some (x, [])
    | some (m, rest) => if x.cost ≤ m.cost then some (x, xs) else some (m, x :: rest)

/-- CLOSED mapping: association list keyed by the dedup key. -/
def Closed : Type := List ((Int × Nat) × State)

instance : DecidableEq Closed := by
  unfold Closed
  infer_instance

/-- Dictionary lookup in the CLOSED mapping. -/
def closedLookup (cl : Closed) (key : Int × Nat) : Option State :=
  match cl.find? (fun e => e.1 == key) with
  | some e => some e.2
  | none => none

/-- Dictionary assignment in the CLOSED mapping: overwrite the entry of the
key if present, append otherwise. -/
def closedInsert : Closed → (Int × Nat) → State → Closed
  | [], key, s => [(key, s)]
  | e :: rest, key, s =>
    if e.1 == key then (key, s) :: rest else e :: closedInsert rest key s

/-- The f-value assignment of the A* search: cost := g + heuristic(goal). -/
def astarComputeCost (goal s : State) : State :=
  s.set_cost (s.g + s.get_heuristic goal)

/-- Path recovery: follow the parent links back to the start and reverse. -/
def recover_path : State → List State
  | .mk x y g c none => [.mk x y g c none]
  | .mk x y g c (some p) => recover_path p ++ [.mk x y g c (some p)]

/-- Second half of the per-child body: the re-push-on-improvement test (with
the exact dedup key the recorded g always equals the child g, so it never
fires, but it is kept as in the code). -/
def pcStep2 (W : Int) (goal node c0 : State) (op : List State) (cl : Closed) :
    List State × Closed :=
  match closedLookup cl (hashKey W c0) with
  | some e =>
    if ((astarComputeCost goal c0).set_parent node).g < e.g then
      (heappush op ((astarComputeCost goal c0).set_parent node),
       closedInsert cl (hashKey W c0) ((astarComputeCost goal c0).set_parent node))
    else (op, cl)
  | none => (op, cl)

/-- Per-child body of the A* for-loop: the child receives its f-value and
parent link; it is pushed and recorded when its dedup key is unseen, and the
improvement test runs on the resulting structures. -/
def pcStep (W : Int) (goal node c0 : State) (op : List State) (cl : Closed) :
    List State × Closed :=
  if (closedLookup cl (hashKey W c0)).isNone then
    pcStep2 W goal node c0
      (heappush op ((astarComputeCost goal c0).set_parent node))
      (closedInsert cl (hashKey W c0) ((astarComputeCost goal c0).set_parent node))
  else
    pcStep2 W goal node c0 op cl

def processChildren (W : Int) (goal node : State) :
    List State → List State → Closed → List State × Closed
  | [], op, cl => (op, cl)
  | c0 :: cs, op, cl =>
    processChildren W goal node cs (pcStep W goal node c0 op cl).1
      (pcStep W goal node c0 op cl).2

/-- Main loop of the A* search: pop the least-cost node; a popped node on the
goal cell ends the search with its g-value and recovered path; otherwise its
children are processed.  An empty queue yields the failure result (-1, no
path).  The result none means the fuel ran out. -/
def astarLoop (m : GridMap) (goal : State) (cons : Cons) :
    Nat → List State → Closed → Option (Int × Option (List State))
  | 0, _, _ => none
  | fuel + 1, op, cl =>
    match popMin op with
    | none => some (-1, none)
    | some (node, rest) =>
      if node.is_goal goal then some ((node.g : Int), some (recover_path node))
      else
        let pc := processChildren m.width goal node (m.successors node cons) rest cl
        astarLoop m goal cons fuel pc.1 pc.2

/-- The A* search of the source: the f-value of the start is computed, the
OPEN and CLOSED structures left over in the instance are cleared, the start
is pushed and recorded, and the main loop runs. -/
def AStar.search (m : GridMap) (openLeftover : List State) (closedLeftover : Closed)
    (fuel : Nat) (start goal : State) (cons : Cons) : Option (Int × Option (List State)) :=
  let start1 := astarComputeCost goal start
  let op0 : List State := []
  let cl0 : Closed := []
  let op1 := heappush op0 start1
  let cl1 := closedInsert cl0 (hashKey m.width start1) start1
  astarLoop m goal cons fuel op1 cl1

/-- Result of a fallible, fueled computation: the fuel ran out, a runtime
error was raised, or a value was produced. -/
inductive Res (α : Type) : Type where
  | fuelOut
  | err
  | ok (a : α)
deriving DecidableEq

/-- The node of the constraint tree: cost, per-agent constraint tables, the
map, the start and goal states, the agent count, and the per-agent paths. -/
structure CBSState : Type where
  cost : Int
  constraints : List Cons
  map : GridMap
  starts : List State
  goals : List State
  k : Nat
  paths : List (Option (List State))
deriving DecidableEq

/-- Constructor of the CBS state: cost zero, one empty constraint table per
agent, no paths yet. -/
def CBSState.init (m : GridMap) (starts goals : List State) : CBSState :=
  { cost := 0
    constraints := List.replicate starts.length ([] : Cons)
    map := m
    starts := starts
    goals := goals
    k := starts.length
    paths := [] }

/-- Add a forbidden timestep for a cell into a per-agent constraint table:
a missing cell first receives an empty set, then the timestep is added (set
semantics: adding an already present timestep changes nothing). -/
def consAdd : Cons → (Int × Int) → Nat → Cons
  | [], pos, t => [(pos, [t])]
  | e :: rest, pos, t =>
    if e.1 == pos then (e.1, if e.2.contains t then e.2 else e.2 ++ [t]) :: rest
    else e :: consAdd rest pos t

/-- Sets a constraint for the agent at the conflict cell and time. -/
def CBSState.set_constraint (st : CBSState) (conflict_state : State)
    (conflict_time : Nat) (agent : Nat) : CBSState :=
  { st with
    constraints :=
      st.constraints.modify
        (fun ac => consAdd ac (conflict_state.x, conflict_state.y) conflict_time) agent }

/-- Inner for-loop of the solution check at one timestep: scan the agents in
index order; an agent past the end of its path counts as finished; an agent
whose state at this timestep equals the state of an earlier agent overwrites
the conflict tuple and clears the valid flag, otherwise its state joins the
step set. -/
def isSolInner : List (List State) → Nat → List State → Nat → Bool →
    Option (State × Nat) → Nat × Bool × Option (State × Nat)
  | [], _, _, fin, valid, conf => (fin, valid, conf)
  | p :: rest, t, sset, fin, valid, conf =>
    if h : t < p.length then
      if sset.any (fun s => State.eqState (p.get ⟨t, h⟩) s) then
        isSolInner rest t sset fin false (some (p.get ⟨t, h⟩, (p.get ⟨t, h⟩).g))
      else
        isSolInner rest t (p.get ⟨t, h⟩ :: sset) fin valid conf
    else
      isSolInner rest t sset (fin + 1) valid conf

/-- Outer while-loop of the solution check: repeat the per-timestep scan with
a fresh step set until every agent is finished. -/
def isSolOuter (ps : List (List State)) (k : Nat) :
    Nat → Nat → Nat → Bool → Option (State × Nat) → Option (Bool × Option (State × Nat))
  | 0, _, fin, valid, conf => if fin < k then none else some (valid, conf)
  | fuel + 1, t, fin, valid, conf =>
    if fin < k then
      isSolOuter ps k fuel (t + 1) (isSolInner ps t [] 0 valid conf).1
        (isSolInner ps t [] 0 valid conf).2.1 (isSolInner ps t [] 0 valid conf).2.2
    else some (valid, conf)

/-- Unwraps the per-agent paths; none signals a missing path (the Python
code would raise on it). -/
def extractPaths : List (Option (List State)) → Option (List (List State))
  | [] => some []
  | none :: _ => none
  | some p :: rest => (extractPaths rest).map (fun l => p :: l)

/-- The first k unwrapped paths of the node, when all are present. -/
def CBSState.extracted (st : CBSState) : Option (List (List State)) :=
  if st.k ≤ st.paths.length then extractPaths (st.paths.take st.k) else none

/-- The largest path length of the node, bounding the timesteps the solution
check has to scan. -/
def maxPathLen (ps : List (List State)) : Nat :=
  ps.foldr (fun p acc => max p.length acc) 0

/-- Solution check of a CBS state: false with a conflict tuple if two agents
share a state at some timestep, true with no tuple otherwise.  A missing
per-agent path is a runtime error. -/
def CBSState.is_solution (st : CBSState) : Res (Bool × Option (State × Nat)) :=
  match st.extracted with
  | none => .err
  | some ps =>
    match isSolOuter ps st.k (maxPathLen ps + 2) 0 0 true none with
    | none => .fuelOut
    | some r => .ok r

/-- Cost computation of a CBS state: run the constrained single-agent search
for the agents in index order, store each resulting path, and add each
resulting cost into the accumulated cost.  An out-of-range index is a
runtime error. -/
def computeCostGo (fuel : Nat) (m : GridMap) (starts goals : List State)
    (constraints : List Cons) :
    Nat → Nat → Int → List (Option (List State)) → Res (Int × List (Option (List State)))
  | 0, _, acc, ps => .ok (acc, ps)
  | n + 1, i, acc, ps =>
    match starts[i]?, goals[i]?, constraints[i]? with
    | some st, some gl, some cs =>
      match AStar.search m [] [] fuel st gl cs with
      | none => .fuelOut
      | some (c, path) =>
        computeCostGo fuel m starts goals constraints n (i + 1) (acc + c) (ps ++ [path])
    | _, _, _ => .err

/-- Cost computation of a CBS state, updating its paths and total cost. -/
def CBSState.compute_cost (fuel : Nat) (st : CBSState) : Res CBSState :=
  match computeCostGo fuel st.map st.starts st.goals st.constraints st.k 0 st.cost [] with
  | .ok (c, ps) => .ok { st with cost := c, paths := ps }
  | .fuelOut => .fuelOut
  | .err => .err

/-- The agents standing on the conflict state at the conflict time. -/
def conflictAgents (st : CBSState) (ps : List (List State)) (cs : State) (ct : Nat) :
    List Nat :=
  (List.range st.k).filter
    (fun i => decide (ct < (ps.getD i []).length) &&
      State.eqState ((ps.getD i []).getD ct (State.init 0 0)) cs)

/-- One child of a branching step: a fresh node over the same problem whose
constraint tables are the parent tables (a deep copy in the source) with the
conflict forbidden for the chosen agent. -/
def branchChild (st : CBSState) (cs : State) (ct : Nat) (agent : Nat) : CBSState :=
  ({ CBSState.init st.map st.starts st.goals with
      constraints := st.constraints }).set_constraint cs ct agent

/-- Branching of a CBS state: on a detected conflict, collect the agents
standing on the conflict state at the conflict time; with at least two of
them, produce two children, each a fresh node carrying a copy of the parent
constraint tables with the conflict forbidden for one of the first two such
agents.  With fewer than two the code prints an error note and returns no
children. -/
def CBSState.successors (st : CBSState) : Res (List CBSState) :=
  match st.is_solution with
  | .fuelOut => .fuelOut
  | .err => .err
  | .ok (valid, conf) =>
    match conf, valid with
    | some (cs, ct), false =>
      match st.extracted with
      | none => .err
      | some ps =>
        if 2 ≤ (conflictAgents st ps cs ct).length then
          .ok [branchChild st cs ct ((conflictAgents st ps cs ct).getD 0 0),
               branchChild st cs ct ((conflictAgents st ps cs ct).getD 1 0)]
        else
          .ok []
    | _, _ => .ok []

/-- The CBS driver of the source: its search method is a stub returning the
pair (None, None) for every input. -/
def CBS.search (start : CBSState) : Option Int × Option (List (Option (List State))) :=
  (none, none)

/-! ### Basic lemmas about the queue, the CLOSED mapping and path recovery -/

theorem popMin_none_iff (l : List State) : popMin l = none ↔ l = [] := by
  cases l with
  | nil => simp [popMin]
  | cons x xs =>
    simp only [popMin]
    constructor
    · intro h
      cases hxs : popMin xs with
      | none => rw [hxs] at h; simp at h
      | some pr =>
        rw [hxs] at h
        by_cases hc : x.cost ≤ pr.1.cost <;> simp [hc] at h
    · intro h; simp at h

theorem popMin_mem {l : List State} {n : State} {rest : List State}
    (h : popMin l = some (n, rest)) : n ∈ l := by
  induction l generalizing n rest with
  | nil => simp [popMin] at h
  | cons x xs ih =>
    simp only [popMin] at h
    cases hxs : popMin xs with
    | none =>
      rw [hxs] at h
      simp at h
      simp [h.1]
    | some pr =>
      rw [hxs] at h
      by_cases hc : x.cost ≤ pr.1.cost
      · simp [hc] at h
        simp [h.1]
      · simp [hc] at h
        have hm : pr.1 ∈ xs := @ih pr.1 pr.2 (by rw [hxs])
        rw [h.1] at hm
        simp [hm]

theorem popMin_min {l : List State} {n : State} {rest : List State}
    (h : popMin l = some (n, rest)) : ∀ x ∈ l, n.cost ≤ x.cost := by
  induction l generalizing n rest with
  | nil => simp [popMin] at h
  | cons x xs ih =>
    simp only [popMin] at h
    cases hxs : popMin xs with
    | none =>
      rw [hxs] at h
      simp at h
      rw [popMin_none_iff] at hxs
      subst hxs
      obtain ⟨h1, _⟩ := h
      subst h1
      intro z hz
      simp at hz
      subst hz
      exact le_refl _
    | some pr =>
      rw [hxs] at h
      have hmin : ∀ z ∈ xs, pr.1.cost ≤ z.cost := @ih pr.1 pr.2 (by rw [hxs])
      by_cases hc : x.cost ≤ pr.1.cost
      · simp [hc] at h
        obtain ⟨h1, _⟩ := h
        subst h1
        intro z hz
        rcases List.mem_cons.mp hz with hz | hz
        · subst hz; exact le_refl _
        · exact le_trans hc (hmin z hz)
      · simp [hc] at h
        obtain ⟨h1, _⟩ := h
        subst h1
        intro z hz
        rcases List.mem_cons.mp hz with hz | hz
        · subst hz; exact le_of_lt (lt_of_not_le hc)
        · exact hmin z hz

theorem popMin_cover {l : List State} {n : State} {rest : List State}
    (h : popMin l = some (n, rest)) : ∀ x ∈ l, x = n ∨ x ∈ rest := by
  induction l generalizing n rest with
  | nil => simp [popMin] at h
  | cons x xs ih =>
    simp only [popMin] at h
    cases hxs : popMin xs with
    | none =>
      rw [hxs] at h
      simp at h
      rw [popMin_none_iff] at hxs
      subst hxs
      obtain ⟨h1, _⟩ := h
      subst h1
      intro z hz
      simp at hz
      exact Or.inl hz
    | some pr =>
      rw [hxs] at h
      have hcov : ∀ z ∈ xs, z = pr.1 ∨ z ∈ pr.2 := @ih pr.1 pr.2 (by rw [hxs])
      by_cases hc : x.cost ≤ pr.1.cost
      · simp [hc] at h
        obtain ⟨h1, h2⟩ := h
        subst h1
        subst h2
        intro z hz
        rcases List.mem_cons.mp hz with hz | hz
        · exact Or.inl hz
        · exact Or.inr hz
      · simp [hc] at h
        obtain ⟨h1, h2⟩ := h
        subst h1
        subst h2
        intro z hz
        rcases List.mem_cons.mp hz with hz | hz
        · exact Or.inr (hz ▸ List.mem_cons_self x pr.2)
        · rcases hcov z hz with h1 | h1
          · exact Or.inl h1
          · exact Or.inr (List.mem_cons_of_mem x h1)

theorem popMin_rest_sub {l : List State} {n : State} {rest : List State}
    (h : popMin l = some (n, rest)) : ∀ x ∈ rest, x ∈ l := by
  induction l generalizing n rest with
  | nil => simp [popMin] at h
  | cons x xs ih =>
    simp only [popMin] at h
    cases hxs : popMin xs with
    | none =>
      rw [hxs] at h
      simp at h
      obtain ⟨_, h2⟩ := h
      subst h2
      intro z hz
      simp at hz
    | some pr =>
      rw [hxs] at h
      have hsub : ∀ z ∈ pr.2, z ∈ xs := @ih pr.1 pr.2 (by rw [hxs])
      by_cases hc : x.cost ≤ pr.1.cost
      · simp [hc] at h
        obtain ⟨_, h2⟩ := h
        subst h2
        intro z hz
        exact List.mem_cons_of_mem x hz
      · simp [hc] at h
        obtain ⟨_, h2⟩ := h
        subst h2
        intro z hz
        rcases List.mem_cons.mp hz with hz | hz
        · simp [hz]
        · exact List.mem_cons_of_mem x (hsub z hz)

theorem mem_heappush {l : List State} {s x : State} (h : x ∈ heappush l s) :
    x = s ∨ x ∈ l := by
  unfold heappush at h
  rcases List.mem_append.mp h with h | h
  · exact Or.inr h
  · simp at h; exact Or.inl h

theorem mem_heappush_left {l : List State} (s : State) {x : State} (h : x ∈ l) :
    x ∈ heappush l s := by
  unfold heappush
  exact List.mem_append.mpr (Or.inl h)

theorem mem_heappush_self (l : List State) (s : State) : s ∈ heappush l s := by
  unfold heappush
  simp

theorem recover_path_ne_nil (n : State) : recover_path n ≠ [] := by
  cases n with
  | mk x y g c p =>
    cases p with
    | none => simp [recover_path]
    | some q => simp [recover_path]

theorem recover_path_getLast (n : State) : (recover_path n).getLast? = some n := by
  cases n with
  | mk x y g c p =>
    cases p with
    | none => simp [recover_path]
    | some q =>
      simp only [recover_path]
      rw [List.getLast?_concat]

theorem recover_path_parent_none {n : State} (h : n.parent = none) :
    recover_path n = [n] := by
  cases n with
  | mk x y g c p =>
    simp only [State.parent] at h
    subst h
    simp [recover_path]

theorem recover_path_set_parent (w p : State) :
    recover_path (w.set_parent p) = recover_path p ++ [w.set_parent p] := by
  cases w with
  | mk x y g c q => simp [State.set_parent, recover_path]

theorem recover_path_head : ∀ (n : State),
    ∃ r, (recover_path n).head? = some r ∧ r.parent = none
  | .mk x y g c none => ⟨.mk x y g c none, by simp [recover_path], rfl⟩
  | .mk x y g c (some q) => by
    obtain ⟨r, hr, hrp⟩ := recover_path_head q
    refine ⟨r, ?_, hrp⟩
    simp only [recover_path]
    rw [List.head?_append, hr]
    rfl

/-! ### Concrete instances used by counterexamples and witnesses -/

/-- Open corridor of two cells. -/
def map2x1 : GridMap := { width := 2, height := 1, blockedCells := [] }

/-- Open square of four cells. -/
def map2x2 : GridMap := { width := 2, height := 2, blockedCells := [] }

/-- Open corridor of three cells. -/
def map3x1 : GridMap := { width := 3, height := 1, blockedCells := [] }

/-- Root node of a solvable two-agent instance whose unconstrained joint plan
is already conflict-free. -/
def rootSolvable : CBSState :=
  CBSState.init map2x2 [State.init 0 0, State.init 0 1] [State.init 1 0, State.init 1 1]

/-! ### Claim C1 -/

/-- C1: the spec promises that solveMAPF, implemented by CBS.search,
terminates in the Solution state on every solvable instance and returns the
joint plan and total cost of the first conflict-free node, never a null
result.  The code contradicts this: CBS.search is a stub returning the null
pair (None, None) on every input, also on a solvable instance whose root
node is already conflict-free. -/
theorem C1_cbs_search_stub_returns_null_on_solvable_instance :
    CBS.search rootSolvable = (none, none) ∧
    ∃ r, CBSState.compute_cost 30 rootSolvable = .ok r ∧
      r.is_solution = .ok (true, none) :=
  ⟨rfl, ⟨_, rfl, by decide⟩⟩

/-! ### Claim C8 -/

/-- C8: for fixed map dimensions, the dedup key (y * mapWidth + x, g) is
collision-free over in-bounds states: two states that differ in (x, y) or in
g receive different keys. -/
theorem C8_hashKey_collision_free (W H : Int) (s1 s2 : State)
    (h1 : 0 ≤ s1.x ∧ s1.x < W ∧ 0 ≤ s1.y ∧ s1.y < H)
    (h2 : 0 ≤ s2.x ∧ s2.x < W ∧ 0 ≤ s2.y ∧ s2.y < H)
    (hne : ¬ (s1.x = s2.x ∧ s1.y = s2.y ∧ s1.g = s2.g)) :
    hashKey W s1 ≠ hashKey W s2 := by
  intro heq
  unfold hashKey at heq
  have hfst : s1.y * W + s1.x = s2.y * W + s2.x := congrArg Prod.fst heq
  have hsnd : s1.g = s2.g := congrArg Prod.snd heq
  obtain ⟨h1x, h1xW, h1y, -⟩ := h1
  obtain ⟨h2x, h2xW, h2y, -⟩ := h2
  have hW : 0 ≤ W := le_trans h1x (le_of_lt h1xW)
  have hy : s1.y = s2.y := by
    by_contra hy
    rcases lt_or_gt_of_ne hy with hlt | hgt
    · have hle : s1.y + 1 ≤ s2.y := hlt
      have hmul : (s1.y + 1) * W ≤ s2.y * W := mul_le_mul_of_nonneg_right hle hW
      have hexp : (s1.y + 1) * W = s1.y * W + W := by ring
      linarith
    · have hle : s2.y + 1 ≤ s1.y := hgt
      have hmul : (s2.y + 1) * W ≤ s1.y * W := mul_le_mul_of_nonneg_right hle hW
      have hexp : (s2.y + 1) * W = s2.y * W + W := by ring
      linarith
  have hx : s1.x = s2.x := by
    rw [hy] at hfst
    linarith
  exact hne ⟨hx, hy, hsnd⟩

/-- Witness for C8 at two concrete in-bounds states differing in (x, y). -/
theorem C8_hashKey_collision_free_witness :
    hashKey 5 (State.mk 1 2 3 0 none) ≠ hashKey 5 (State.mk 2 1 3 0 none) :=
  C8_hashKey_collision_free 5 5 (State.mk 1 2 3 0 none) (State.mk 2 1 3 0 none)
    (by decide) (by decide) (by decide)

/-! ### Claim C9 -/

/-- C9: AStar.search clears the OPEN and CLOSED structures at entry, so two
invocations with equal (start, goal, constraints) arguments on the same map
return equal results regardless of any contents left in the instance
structures by earlier calls; repeated calls on one instance behave like
calls on fresh instances. -/
theorem C9_search_independent_of_leftover_state (m : GridMap)
    (o1 o2 : List State) (c1 c2 : Closed) (fuel : Nat) (start goal : State)
    (cons : Cons) :
    AStar.search m o1 c1 fuel start goal cons =
    AStar.search m o2 c2 fuel start goal cons := rfl

/-! ### Claim C7 -/

/-- Counterexample to C7: an input whose starts and goals sequences have
different lengths is not rejected before search: the node is constructed
without complaint (k = 2 agents, two constraint tables), and the failure
surfaces only as a runtime indexing error inside compute_cost, i.e. in the
middle of the search work. -/
theorem C7_counterexample_mismatch_accepted :
    (CBSState.init map2x1 [State.init 0 0, State.init 1 0] [State.init 0 0]).k = 2 ∧
    (CBSState.init map2x1 [State.init 0 0, State.init 1 0] [State.init 0 0]).constraints.length = 2 ∧
    CBSState.compute_cost 30
      (CBSState.init map2x1 [State.init 0 0, State.init 1 0] [State.init 0 0]) = .err := by
  refine ⟨rfl, rfl, ?_⟩
  decide

/-- Helper for C7: with fewer goals than the loop has agents, the per-agent
cost loop can never return a value: it errs at the missing index (or runs
out of fuel earlier); there is no validation short-circuit. -/
theorem computeCostGo_mismatch_not_ok (fuel : Nat) (m : GridMap)
    (starts goals : List State) (constraints : List Cons) :
    ∀ (n i : Nat) (acc : Int) (ps : List (Option (List State)))
      (r : Int × List (Option (List State))),
      i ≤ goals.length → goals.length < i + n →
      computeCostGo fuel m starts goals constraints n i acc ps ≠ .ok r := by
  intro n
  induction n with
  | zero =>
    intro i acc ps r hi hlt hok
    omega
  | succ n ih =>
    intro i acc ps r hi hlt
    simp only [computeCostGo]
    rcases Nat.lt_or_ge i goals.length with hig | hig
    · cases hs : starts[i]? with
      | none => simp
      | some st =>
        cases hg : goals[i]? with
        | none => simp
        | some gl =>
          cases hc : constraints[i]? with
          | none => simp
          | some cs =>
            simp only
            cases hsr : AStar.search m [] [] fuel st gl cs with
            | none => simp
            | some pr =>
              simp only
              exact ih (i + 1) (acc + pr.1) (ps ++ [pr.2]) r hig (by omega)
    · have hg : goals[i]? = none := List.getElem?_eq_none hig
      rw [hg]
      cases hs : starts[i]? <;> simp

/-- C7 (amended): no input validation is performed.  The constructor accepts
every input, mismatched or out of bounds, setting k to the number of starts;
an input with fewer goals than starts is never solved: its cost computation
errs at the missing goal index in the middle of the search (or runs out of
fuel), not before search begins. -/
theorem C7_amended_no_validation_mismatch_fails_mid_search (m : GridMap)
    (starts goals : List State) (fuel : Nat)
    (hlen : goals.length < starts.length) :
    (CBSState.init m starts goals).k = starts.length ∧
    ∀ r, CBSState.compute_cost fuel (CBSState.init m starts goals) ≠ .ok r := by
  refine ⟨rfl, ?_⟩
  intro r hok
  unfold CBSState.compute_cost at hok
  rcases hgo : computeCostGo fuel (CBSState.init m starts goals).map
      (CBSState.init m starts goals).starts (CBSState.init m starts goals).goals
      (CBSState.init m starts goals).constraints (CBSState.init m starts goals).k
      0 (CBSState.init m starts goals).cost [] with _ | _ | pr
  · rw [hgo] at hok; exact Res.noConfusion hok
  · rw [hgo] at hok; exact Res.noConfusion hok
  · have : computeCostGo fuel m starts goals
        (List.replicate starts.length ([] : Cons)) starts.length 0 0 [] = .ok pr := hgo
    exact computeCostGo_mismatch_not_ok fuel m starts goals
      (List.replicate starts.length ([] : Cons)) starts.length 0 0 [] pr
      (Nat.zero_le _) (by omega) this

/-- Witness for C7 (amended) at a concrete mismatched input. -/
theorem C7_amended_witness :
    (CBSState.init map2x1 [State.init 0 0, State.init 1 0] [State.init 0 0]).k = 2 ∧
    ∀ r, CBSState.compute_cost 30
      (CBSState.init map2x1 [State.init 0 0, State.init 1 0] [State.init 0 0]) ≠ .ok r :=
  C7_amended_no_validation_mismatch_fails_mid_search map2x1
    [State.init 0 0, State.init 1 0] [State.init 0 0] 30 (by decide)

/-! ### Claim C10 -/

/-- Helper: a successful run of the per-agent cost loop is exactly the list
of single-agent search results, with the costs summed into the accumulator
and the paths appended in order. -/
theorem computeCostGo_ok_results (fuel : Nat) (m : GridMap)
    (starts goals : List State) (constraints : List Cons) :
    ∀ (n i : Nat) (acc : Int) (ps : List (Option (List State))) (acc' : Int)
      (ps' : List (Option (List State))),
      computeCostGo fuel m starts goals constraints n i acc ps = .ok (acc', ps') →
      ∃ results : List (Int × Option (List State)),
        results.length = n ∧
        (∀ j, j < n →
          AStar.search m [] [] fuel (starts.getD (i + j) (State.init 0 0))
            (goals.getD (i + j) (State.init 0 0))
            (constraints.getD (i + j) []) = some (results.getD j (0, none))) ∧
        acc' = acc + (results.map Prod.fst).sum ∧
        ps' = ps ++ results.map Prod.snd := by
  intro n
  induction n with
  | zero =>
    intro i acc ps acc' ps' hok
    simp only [computeCostGo] at hok
    injection hok with hpair
    have h1 : acc = acc' := congrArg Prod.fst hpair
    have h2 : ps = ps' := congrArg Prod.snd hpair
    refine ⟨[], rfl, ?_, ?_, ?_⟩
    · intro j hj; omega
    · rw [← h1]; simp
    · rw [← h2]; simp
  | succ n ih =>
    intro i acc ps acc' ps' hok
    simp only [computeCostGo] at hok
    cases hs : starts[i]? with
    | none => rw [hs] at hok; cases hg : goals[i]? <;> rw [hg] at hok <;>
        cases hc : constraints[i]? <;> rw [hc] at hok <;> exact Res.noConfusion hok
    | some st =>
      rw [hs] at hok
      cases hg : goals[i]? with
      | none => rw [hg] at hok; cases hc : constraints[i]? <;> rw [hc] at hok <;>
          exact Res.noConfusion hok
      | some gl =>
        rw [hg] at hok
        cases hc : constraints[i]? with
        | none => rw [hc] at hok; exact Res.noConfusion hok
        | some cs =>
          rw [hc] at hok
          simp only at hok
          cases hsr : AStar.search m [] [] fuel st gl cs with
          | none => rw [hsr] at hok; exact Res.noConfusion hok
          | some pr =>
            rw [hsr] at hok
            simp only at hok
            obtain ⟨results, hlen, hres, hacc, hps⟩ :=
              ih (i + 1) (acc + pr.1) (ps ++ [pr.2]) acc' ps' hok
            refine ⟨pr :: results, by simp [hlen], ?_, ?_, ?_⟩
            · intro j hj
              cases j with
              | zero =>
                simp only [Nat.add_zero, List.getD_cons_zero]
                rw [List.getD_eq_getElem?_getD, List.getD_eq_getElem?_getD,
                  List.getD_eq_getElem?_getD]
                rw [hs, hg, hc]
                simpa using hsr
              | succ j =>
                have heq : i + (j + 1) = i + 1 + j := by omega
                rw [heq, List.getD_cons_succ]
                exact hres j (by omega)
            · rw [hacc]; simp; ring
            · rw [hps]; simp

/-- C10: when compute_cost succeeds and the constrained single-agent search
of some agent fails (result cost -1 and no path), compute_cost stores the
absent path (None) as that agent entry of the joint plan and adds the -1
into the accumulated total cost, signaling no error: the per-agent failure
is silently folded into the returned paths and cost. -/
theorem C10_failed_search_folded_into_result (fuel : Nat) (st st' : CBSState)
    (i : Nat) (hok : CBSState.compute_cost fuel st = .ok st') (hi : i < st.k)
    (hfail : AStar.search st.map [] [] fuel (st.starts.getD i (State.init 0 0))
      (st.goals.getD i (State.init 0 0)) (st.constraints.getD i []) = some (-1, none)) :
    st'.paths.getD i (some []) = none ∧
    ∃ results : List (Int × Option (List State)),
      results.length = st.k ∧
      st'.paths = results.map Prod.snd ∧
      st'.cost = st.cost + (results.map Prod.fst).sum ∧
      results.getD i (0, none) = (-1, none) := by
  unfold CBSState.compute_cost at hok
  cases hgo : computeCostGo fuel st.map st.starts st.goals st.constraints st.k 0 st.cost []
    with
  | fuelOut => rw [hgo] at hok; exact Res.noConfusion hok
  | err => rw [hgo] at hok; exact Res.noConfusion hok
  | ok pr =>
    rw [hgo] at hok
    simp only at hok
    obtain ⟨results, hlen, hres, hacc, hps⟩ :=
      computeCostGo_ok_results fuel st.map st.starts st.goals st.constraints
        st.k 0 st.cost [] pr.1 pr.2 (by rw [hgo])
    have hst' : st' = { st with cost := pr.1, paths := pr.2 } := by
      cases hok; rfl
    have hri : results.getD i (0, none) = (-1, none) := by
      have := hres i (hlen ▸ (hlen.symm ▸ hi))
      simp only [Nat.zero_add] at this
      rw [hfail] at this
      exact (Option.some.injEq _ _ ▸ this ▸ rfl : ((-1 : Int), (none : Option (List State))) = results.getD i (0, none)).symm
    refine ⟨?_, results, hlen, ?_, ?_, hri⟩
    · rw [hst']
      simp only
      rw [hps]
      simp only [List.nil_append]
      have hilt : i < results.length := hlen ▸ hi
      have hgd : (List.map Prod.snd results).getD i (some []) =
          Prod.snd (results.getD i (0, none)) := by
        rw [List.getD_eq_getElem (List.map Prod.snd results) (some []) (by simpa using hilt),
          List.getElem_map, List.getD_eq_getElem results (0, none) hilt]
      rw [hgd, hri]
    · rw [hst']; simpa using hps
    · rw [hst']; simpa using hacc

/-- One-agent instance whose only agent is fenced in by constraints: both
cells of the corridor are forbidden at timestep 1, so its search exhausts. -/
def c10st : CBSState :=
  ((CBSState.init map2x1 [State.init 0 0] [State.init 1 0]).set_constraint
      (State.init 0 0) 1 0).set_constraint (State.init 1 0) 1 0

/-- Witness for C10 at the fenced-in one-agent instance. -/
theorem C10_witness :
    ∃ st', CBSState.compute_cost 30 c10st = .ok st' ∧
      (st'.paths.getD 0 (some []) = none ∧
        ∃ results : List (Int × Option (List State)),
          results.length = c10st.k ∧
          st'.paths = results.map Prod.snd ∧
          st'.cost = c10st.cost + (results.map Prod.fst).sum ∧
          results.getD 0 (0, none) = (-1, none)) :=
  ⟨_, rfl, C10_failed_search_folded_into_result 30 c10st _ 0 rfl (by decide) (by decide)⟩

/-! ### Claim C2 -/

/-- Default state used with list indexing. -/
def dflt : State := State.init 0 0

/-- Pure view of one timestep of the solution check: scan the agents in
order, accumulating the states seen; return the state of the last agent
standing on an already seen state, if any. -/
def stepScan : List (List State) → Nat → List State → Option State
  | [], _, _ => none
  | p :: rest, t, sset =>
    if h : t < p.length then
      if sset.any (fun s => State.eqState (p.get ⟨t, h⟩) s) then
        match stepScan rest t sset with
        | some w => some w
        | none => some (p.get ⟨t, h⟩)
      else stepScan rest t (p.get ⟨t, h⟩ :: sset)
    else stepScan rest t sset

/-- Number of agents already finished at timestep t. -/
def countFin (ps : List (List State)) (t : Nat) : Nat :=
  ps.countP (fun p => decide (p.length ≤ t))

/-- The inner loop of the solution check counts the finished agents and
overwrites the conflict tuple with the last collision of the timestep. -/
theorem isSolInner_eq : ∀ (rest : List (List State)) (t : Nat) (sset : List State)
    (fin : Nat) (v : Bool) (c : Option (State × Nat)),
    isSolInner rest t sset fin v c =
      (fin + countFin rest t,
       match stepScan rest t sset with
       | some w => (false, some (w, w.g))
       | none => (v, c)) := by
  intro rest
  induction rest with
  | nil => intro t sset fin v c; simp [isSolInner, stepScan, countFin]
  | cons p rest ih =>
    intro t sset fin v c
    by_cases h : t < p.length
    · have hfin : countFin (p :: rest) t = countFin rest t := by
        simp [countFin, List.countP_cons, Nat.not_le.mpr h]
      by_cases hany : (sset.any (fun s => State.eqState (p.get ⟨t, h⟩) s)) = true
      · rw [show isSolInner (p :: rest) t sset fin v c =
            isSolInner rest t sset fin false (some (p.get ⟨t, h⟩, (p.get ⟨t, h⟩).g)) by
          simp only [isSolInner]; rw [dif_pos h, if_pos hany]]
        rw [show stepScan (p :: rest) t sset =
            (match stepScan rest t sset with
             | some w => some w
             | none => some (p.get ⟨t, h⟩)) by
          simp only [stepScan]; rw [dif_pos h, if_pos hany]]
        rw [ih]
        cases hss : stepScan rest t sset <;> simp [hss, hfin]
      · rw [show isSolInner (p :: rest) t sset fin v c =
            isSolInner rest t (p.get ⟨t, h⟩ :: sset) fin v c by
          simp only [isSolInner]; rw [dif_pos h, if_neg hany]]
        rw [show stepScan (p :: rest) t sset = stepScan rest t (p.get ⟨t, h⟩ :: sset) by
          simp only [stepScan]; rw [dif_pos h, if_neg hany]]
        rw [ih, hfin]
    · have hfin : countFin (p :: rest) t = countFin rest t + 1 := by
        simp [countFin, List.countP_cons, Nat.le_of_not_lt h]
      rw [show isSolInner (p :: rest) t sset fin v c = isSolInner rest t sset (fin + 1) v c by
        simp only [isSolInner]; rw [dif_neg h]]
      rw [show stepScan (p :: rest) t sset = stepScan rest t sset by
        simp only [stepScan]; rw [dif_neg h]]
      rw [ih, hfin]
      have : fin + 1 + countFin rest t = fin + (countFin rest t + 1) := by omega
      rw [this]

/-- A reported collision state really is the state of some agent at the
scanned timestep, equal to the state of an earlier agent or to a state of
the accumulated set. -/
theorem stepScan_some_spec : ∀ (rest : List (List State)) (t : Nat) (sset : List State)
    (w : State), stepScan rest t sset = some w →
    ∃ i, i < rest.length ∧ t < (rest.getD i []).length ∧
      w = (rest.getD i []).getD t dflt ∧
      ((∃ v ∈ sset, State.eqState w v = true) ∨
        (∃ j, j < i ∧ t < (rest.getD j []).length ∧
          State.eqState w ((rest.getD j []).getD t dflt) = true)) := by
  intro rest
  induction rest with
  | nil => intro t sset w hw; simp [stepScan] at hw
  | cons p rest ih =>
    intro t sset w hw
    by_cases h : t < p.length
    · have hcur : p.get ⟨t, h⟩ = p.getD t dflt := by
        rw [List.getD_eq_getElem p dflt h]
        rfl
      by_cases hany : (sset.any (fun s => State.eqState (p.get ⟨t, h⟩) s)) = true
      · rw [show stepScan (p :: rest) t sset =
            (match stepScan rest t sset with
             | some w => some w
             | none => some (p.get ⟨t, h⟩)) by
          simp only [stepScan]; rw [dif_pos h, if_pos hany]] at hw
        cases hss : stepScan rest t sset with
        | some w0 =>
          rw [hss] at hw
          simp at hw
          obtain ⟨i, hi, hact, hweq, hpart⟩ := ih t sset w0 hss
          refine ⟨i + 1, by simpa using hi, by rw [List.getD_cons_succ]; exact hact,
            by rw [List.getD_cons_succ]; exact hw ▸ hweq, ?_⟩
          rcases hpart with hp | ⟨j, hj, hjact, hjeq⟩
          · exact Or.inl (hw ▸ hp)
          · exact Or.inr ⟨j + 1, by omega, by rw [List.getD_cons_succ]; exact hjact,
              by rw [List.getD_cons_succ]; exact hw ▸ hjeq⟩
        | none =>
          rw [hss] at hw
          simp at hw
          obtain ⟨v, hv, hveq⟩ := List.any_eq_true.mp hany
          refine ⟨0, by simp, by rw [List.getD_cons_zero]; exact h,
            by rw [List.getD_cons_zero]; exact hw ▸ hcur, ?_⟩
          refine Or.inl ⟨v, hv, ?_⟩
          rw [← hw]
          exact hveq
      · rw [show stepScan (p :: rest) t sset = stepScan rest t (p.get ⟨t, h⟩ :: sset) by
          simp only [stepScan]; rw [dif_pos h, if_neg hany]] at hw
        obtain ⟨i, hi, hact, hweq, hpart⟩ := ih t (p.get ⟨t, h⟩ :: sset) w hw
        refine ⟨i + 1, by simpa using hi, by rw [List.getD_cons_succ]; exact hact,
          by rw [List.getD_cons_succ]; exact hweq, ?_⟩
        rcases hpart with ⟨v, hv, hveq⟩ | ⟨j, hj, hjact, hjeq⟩
        · rcases List.mem_cons.mp hv with hv | hv
          · refine Or.inr ⟨0, by omega, by rw [List.getD_cons_zero]; exact h, ?_⟩
            rw [List.getD_cons_zero, ← hcur, ← hv]
            exact hveq
          · exact Or.inl ⟨v, hv, hveq⟩
        · exact Or.inr ⟨j + 1, by omega, by rw [List.getD_cons_succ]; exact hjact,
            by rw [List.getD_cons_succ]; exact hjeq⟩
    · rw [show stepScan (p :: rest) t sset = stepScan rest t sset by
        simp only [stepScan]; rw [dif_neg h]] at hw
      obtain ⟨i, hi, hact, hweq, hpart⟩ := ih t sset w hw
      refine ⟨i + 1, by simpa using hi, by rw [List.getD_cons_succ]; exact hact,
        by rw [List.getD_cons_succ]; exact hweq, ?_⟩
      rcases hpart with hp | ⟨j, hj, hjact, hjeq⟩
      · exact Or.inl hp
      · exact Or.inr ⟨j + 1, by omega, by rw [List.getD_cons_succ]; exact hjact,
          by rw [List.getD_cons_succ]; exact hjeq⟩

/-- Vertex conflict: two distinct agents occupy equal space-time states at
timestep t of their paths. -/
def ConflictAt (ps : List (List State)) (t : Nat) : Prop :=
  ∃ i j, j < i ∧ i < ps.length ∧ t < (ps.getD i []).length ∧ t < (ps.getD j []).length ∧
    State.eqState ((ps.getD i []).getD t dflt) ((ps.getD j []).getD t dflt) = true

/-- A silent scan means no collision: no later agent stands on the state of
an earlier agent, and no agent stands on a state of the accumulated set. -/
theorem stepScan_none_spec : ∀ (rest : List (List State)) (t : Nat) (sset : List State),
    stepScan rest t sset = none →
    (∀ i j, j < i → i < rest.length → t < (rest.getD i []).length →
      t < (rest.getD j []).length →
      State.eqState ((rest.getD i []).getD t dflt) ((rest.getD j []).getD t dflt) = false) ∧
    (∀ i, i < rest.length → t < (rest.getD i []).length → ∀ v ∈ sset,
      State.eqState ((rest.getD i []).getD t dflt) v = false) := by
  intro rest
  induction rest with
  | nil =>
    intro t sset hw
    constructor
    · intro i j hj hi
      simp at hi
    · intro i hi
      simp at hi
  | cons p rest ih =>
    intro t sset hw
    by_cases h : t < p.length
    · have hcur : p.get ⟨t, h⟩ = p.getD t dflt := by
        rw [List.getD_eq_getElem p dflt h]
        rfl
      by_cases hany : (sset.any (fun s => State.eqState (p.get ⟨t, h⟩) s)) = true
      · exfalso
        rw [show stepScan (p :: rest) t sset =
            (match stepScan rest t sset with
             | some w => some w
             | none => some (p.get ⟨t, h⟩)) by
          simp only [stepScan]; rw [dif_pos h, if_pos hany]] at hw
        cases hss : stepScan rest t sset <;> rw [hss] at hw <;> simp at hw
      · rw [show stepScan (p :: rest) t sset = stepScan rest t (p.get ⟨t, h⟩ :: sset) by
          simp only [stepScan]; rw [dif_pos h, if_neg hany]] at hw
        obtain ⟨hpairs, hhit⟩ := ih t (p.get ⟨t, h⟩ :: sset) hw
        constructor
        · intro i j hj hi hact hactj
          cases i with
          | zero => omega
          | succ i =>
            cases j with
            | zero =>
              have := hhit i (by simpa using hi) (by rw [List.getD_cons_succ] at hact; exact hact)
                (p.get ⟨t, h⟩) (List.mem_cons_self _ _)
              rw [List.getD_cons_succ, List.getD_cons_zero, ← hcur]
              exact this
            | succ j =>
              have := hpairs i j (by omega) (by simpa using hi) (by simpa using hact)
                (by simpa using hactj)
              simpa using this
        · intro i hi hact v hv
          cases i with
          | zero =>
            simp only [List.getD_cons_zero] at hact ⊢
            rw [← hcur]
            cases hb : State.eqState (p.get ⟨t, h⟩) v with
            | false => rfl
            | true => exact absurd (List.any_eq_true.mpr ⟨v, hv, hb⟩) hany
          | succ i =>
            have := hhit i (by simpa using hi) (by simpa using hact) v
              (List.mem_cons_of_mem _ hv)
            simpa using this
    · rw [show stepScan (p :: rest) t sset = stepScan rest t sset by
        simp only [stepScan]; rw [dif_neg h]] at hw
      obtain ⟨hpairs, hhit⟩ := ih t sset hw
      constructor
      · intro i j hj hi hact hactj
        cases i with
        | zero => omega
        | succ i =>
          cases j with
          | zero => simp only [List.getD_cons_zero] at hactj; omega
          | succ j =>
            have := hpairs i j (by omega) (by simpa using hi) (by simpa using hact)
              (by simpa using hactj)
            simpa using this
      · intro i hi hact v hv
        cases i with
        | zero => simp only [List.getD_cons_zero] at hact; omega
        | succ i =>
          have := hhit i (by simpa using hi) (by simpa using hact) v hv
          simpa using this

/-- When every agent is past the end of its path nothing is scanned. -/
theorem stepScan_all_done : ∀ (rest : List (List State)) (u : Nat) (sset : List State),
    (∀ p ∈ rest, p.length ≤ u) → stepScan rest u sset = none := by
  intro rest
  induction rest with
  | nil => intro u sset hall; simp [stepScan]
  | cons p rest ih =>
    intro u sset hall
    have hp : ¬ u < p.length := Nat.not_lt.mpr (hall p (List.mem_cons_self _ _))
    rw [show stepScan (p :: rest) u sset = stepScan rest u sset by
      simp only [stepScan]; rw [dif_neg hp]]
    exact ih u sset (fun q hq => hall q (List.mem_cons_of_mem _ hq))

/-- Each path length is bounded by the largest path length. -/
theorem maxPathLen_le : ∀ (ps : List (List State)), ∀ p ∈ ps, p.length ≤ maxPathLen ps := by
  intro ps
  induction ps with
  | nil => intro p hp; simp at hp
  | cons q rest ih =>
    intro p hp
    rcases List.mem_cons.mp hp with hp | hp
    · rw [hp]
      simp only [maxPathLen, List.foldr_cons]
      exact le_max_left _ _
    · calc p.length ≤ maxPathLen rest := ih p hp
      _ ≤ max q.length (maxPathLen rest) := le_max_right _ _
      _ = maxPathLen (q :: rest) := by simp [maxPathLen]

/-- If not every agent is finished at t, some path is still active at t. -/
theorem countFin_lt_exists (ps : List (List State)) (t : Nat)
    (h : countFin ps t < ps.length) : ∃ p ∈ ps, t < p.length := by
  by_contra hno
  push_neg at hno
  have hall : ∀ p ∈ ps, (fun p : List State => decide (p.length ≤ t)) p = true := by
    intro p hp
    simp only [decide_eq_true_eq]
    exact hno p hp
  have := List.countP_eq_length.mpr hall
  unfold countFin at h
  omega

/-- If the finished count reaches the agent count, every path has ended. -/
theorem countFin_all (ps : List (List State)) (t : Nat)
    (h : ps.length ≤ countFin ps t) : ∀ p ∈ ps, p.length ≤ t := by
  have hle : countFin ps t ≤ ps.length := List.countP_le_length _
  have heq : countFin ps t = ps.length := le_antisymm hle h
  unfold countFin at heq
  have := List.countP_eq_length.mp heq
  intro p hp
  have hh := this p hp
  simp only [decide_eq_true_eq] at hh
  exact hh

/-- Characterization of the outer while-loop of the solution check: when it
returns, either no timestep from the current one on has a collision and the
accumulators are returned unchanged, or the returned conflict tuple is the
collision state of the largest colliding timestep (with its g value), the
valid flag is false, and no later timestep has a collision. -/
theorem isSolOuter_spec (ps : List (List State)) (k : Nat) (hk : ps.length = k) :
    ∀ (fuel t fin : Nat) (v : Bool) (c : Option (State × Nat)) (v' : Bool)
      (c' : Option (State × Nat)),
      (k ≤ fin → ∀ p ∈ ps, p.length < t) →
      isSolOuter ps k fuel t fin v c = some (v', c') →
      ((∀ u, t ≤ u → stepScan ps u [] = none) ∧ v' = v ∧ c' = c) ∨
      (∃ tm w, t ≤ tm ∧ stepScan ps tm [] = some w ∧ v' = false ∧
        c' = some (w, w.g) ∧ ∀ u, tm < u → stepScan ps u [] = none) := by
  intro fuel
  induction fuel with
  | zero =>
    intro t fin v c v' c' hfin hout
    simp only [isSolOuter] at hout
    by_cases hflt : fin < k
    · rw [if_pos hflt] at hout; exact Option.noConfusion hout
    · rw [if_neg hflt] at hout
      injection hout with hpair
      left
      refine ⟨?_, (congrArg Prod.fst hpair).symm, (congrArg Prod.snd hpair).symm⟩
      intro u hu
      apply stepScan_all_done
      intro p hp
      exact le_trans (le_of_lt (hfin (Nat.le_of_not_lt hflt) p hp)) hu
  | succ fuel ih =>
    intro t fin v c v' c' hfin hout
    simp only [isSolOuter] at hout
    by_cases hflt : fin < k
    · rw [if_pos hflt, isSolInner_eq] at hout
      have hfin2 : k ≤ (0 + countFin ps t) → ∀ p ∈ ps, p.length < t + 1 := by
        intro hkc p hp
        have := countFin_all ps t (by omega) p hp
        omega
      cases hss : stepScan ps t [] with
      | none =>
        rw [hss] at hout
        dsimp only at hout
        rcases ih (t + 1) (0 + countFin ps t) v c v' c' hfin2 hout with
          ⟨hall, hv, hc⟩ | ⟨tm, w, htm, hsw, hv, hc, haft⟩
        · left
          refine ⟨?_, hv, hc⟩
          intro u hu
          rcases Nat.eq_or_lt_of_le hu with heq | hlt
          · rw [← heq]; exact hss
          · exact hall u hlt
        · exact Or.inr ⟨tm, w, by omega, hsw, hv, hc, haft⟩
      | some w =>
        rw [hss] at hout
        dsimp only at hout
        rcases ih (t + 1) (0 + countFin ps t) false (some (w, w.g)) v' c' hfin2 hout with
          ⟨hall, hv, hc⟩ | ⟨tm, w2, htm, hsw, hv, hc, haft⟩
        · exact Or.inr ⟨t, w, le_refl t, hss, hv, hc, fun u hu => hall u hu⟩
        · exact Or.inr ⟨tm, w2, by omega, hsw, hv, hc, haft⟩
    · rw [if_neg hflt] at hout
      injection hout with hpair
      left
      refine ⟨?_, (congrArg Prod.fst hpair).symm, (congrArg Prod.snd hpair).symm⟩
      intro u hu
      apply stepScan_all_done
      intro p hp
      exact le_trans (le_of_lt (hfin (Nat.le_of_not_lt hflt) p hp)) hu

/-- The fuel budget of the solution check suffices: the outer loop always
returns a value. -/
theorem isSolOuter_isSome (ps : List (List State)) (k : Nat) (hk : ps.length = k) :
    ∀ (fuel t fin : Nat) (v : Bool) (c : Option (State × Nat)),
      (fin < k → maxPathLen ps + 2 ≤ t + fuel ∧ 1 ≤ fuel) →
      (isSolOuter ps k fuel t fin v c).isSome := by
  intro fuel
  induction fuel with
  | zero =>
    intro t fin v c hcond
    simp only [isSolOuter]
    by_cases hflt : fin < k
    · exact absurd (hcond hflt).2 (by omega)
    · rw [if_neg hflt]; rfl
  | succ fuel ih =>
    intro t fin v c hcond
    simp only [isSolOuter]
    by_cases hflt : fin < k
    · rw [if_pos hflt]
      apply ih
      intro hflt2
      rw [isSolInner_eq] at hflt2
      dsimp only at hflt2
      have hex : ∃ p ∈ ps, t < p.length := by
        apply countFin_lt_exists
        omega
      obtain ⟨p, hp, htp⟩ := hex
      have hple := maxPathLen_le ps p hp
      have hcond2 := hcond hflt
      constructor <;> omega
    · rw [if_neg hflt]; rfl

/-- Unwrapping preserves the number of per-agent paths. -/
theorem extractPaths_length : ∀ (l : List (Option (List State))) (ps : List (List State)),
    extractPaths l = some ps → ps.length = l.length := by
  intro l
  induction l with
  | nil => intro ps h; simp [extractPaths] at h; simp [← h]
  | cons op rest ih =>
    intro ps h
    cases op with
    | none => simp [extractPaths] at h
    | some p =>
      simp only [extractPaths] at h
      cases hrest : extractPaths rest with
      | none => rw [hrest] at h; simp at h
      | some ps0 =>
        rw [hrest] at h
        simp at h
        rw [← h]
        simp [ih ps0 hrest]

/-- The unwrapped paths number exactly the agents. -/
theorem extracted_length (st : CBSState) (ps : List (List State))
    (hex : st.extracted = some ps) : ps.length = st.k := by
  unfold CBSState.extracted at hex
  by_cases hkp : st.k ≤ st.paths.length
  · rw [if_pos hkp] at hex
    have := extractPaths_length _ _ hex
    rw [this, List.length_take]
    omega
  · rw [if_neg hkp] at hex
    exact Option.noConfusion hex

/-- A silent step scan excludes a vertex conflict at that timestep. -/
theorem not_conflict_of_stepScan_none (ps : List (List State)) (u : Nat)
    (h : stepScan ps u [] = none) : ¬ ConflictAt ps u := by
  intro hc
  obtain ⟨i, j, hj, hi, hact, hactj, heq⟩ := hc
  have hf := (stepScan_none_spec ps u [] h).1 i j hj hi hact hactj
  rw [hf] at heq
  exact Bool.noConfusion heq

/-- First path of the conflict-ordering counterexample: it collides with the
second path at timesteps 1 and 2. -/
def c2path0 : List State := [State.init 0 0, (State.init 1 0).set_g 1, (State.init 2 0).set_g 2]

/-- Second path of the conflict-ordering counterexample. -/
def c2path1 : List State := [State.init 0 1, (State.init 1 0).set_g 1, (State.init 2 0).set_g 2]

/-- A CBS node holding the two colliding paths. -/
def c2st : CBSState :=
  { CBSState.init map3x1 [State.init 0 0, State.init 0 1] [State.init 2 0, State.init 2 0] with
    paths := [some c2path0, some c2path1] }

/-- Counterexample to C2: the two paths collide at timestep 1 (both agents
stand on cell (1,0) with g = 1) and again at timestep 2, and is_solution
reports the conflict at timestep 2 — not the smallest conflicting timestep,
which would be 1. -/
theorem C2_counterexample_reports_later_conflict :
    c2st.is_solution = .ok (false, some ((State.init 2 0).set_g 2, 2)) ∧
    State.eqState (c2path0.getD 1 dflt) (c2path1.getD 1 dflt) = true ∧
    1 < c2path0.length ∧ 1 < c2path1.length ∧ (2 : Nat) ≠ 1 := by
  decide

/-- C2 (amended): on per-agent paths whose states record their timestep
(g equal to the path index), a conflict tuple (s, t) reported by
is_solution names the LARGEST timestep with a vertex conflict — the
conflict detected last by the increasing scan — and s is the state of a
conflicting agent there; no conflict at any later timestep exists, and
conversely a vertex conflict at any timestep forces a false verdict with a
conflict tuple. -/
theorem C2_amended_reports_last_conflict (st : CBSState) (ps : List (List State))
    (hex : st.extracted = some ps)
    (htime : ∀ p ∈ ps, ∀ i, i < p.length → (p.getD i dflt).g = i) :
    (∀ w tr, st.is_solution = .ok (false, some (w, tr)) →
      ConflictAt ps tr ∧ (∀ u, tr < u → ¬ ConflictAt ps u) ∧
      ∃ i, i < ps.length ∧ tr < (ps.getD i []).length ∧
        w = (ps.getD i []).getD tr dflt) ∧
    ((∃ u, ConflictAt ps u) → ∃ w tr, st.is_solution = .ok (false, some (w, tr))) := by
  have hk := extracted_length st ps hex
  have hempty : st.k ≤ 0 → ∀ p ∈ ps, p.length < 0 := by
    intro hk0 p hp
    have hlen0 : ps.length = 0 := by omega
    rw [List.length_eq_zero] at hlen0
    subst hlen0
    simp at hp
  constructor
  · intro w tr hsol
    unfold CBSState.is_solution at hsol
    rw [hex] at hsol
    dsimp only at hsol
    cases houter : isSolOuter ps st.k (maxPathLen ps + 2) 0 0 true none with
    | none => rw [houter] at hsol; exact Res.noConfusion hsol
    | some r =>
      rw [houter] at hsol
      injection hsol with hr
      subst hr
      rcases isSolOuter_spec ps st.k hk (maxPathLen ps + 2) 0 0 true none false
          (some (w, tr)) hempty houter with
        ⟨hall, hv, hc⟩ | ⟨tm, w0, htm, hsw, hv, hc, haft⟩
      · exact Bool.noConfusion hv
      · injection hc with hcp
        have hw : w = w0 := congrArg Prod.fst hcp
        have htr : tr = w0.g := congrArg Prod.snd hcp
        obtain ⟨i, hi, hact, hweq, hpart⟩ := stepScan_some_spec ps tm [] w0 hsw
        rcases hpart with ⟨v, hv0, -⟩ | ⟨j, hj, hjact, hjeq⟩
        · simp at hv0
        · have hmem : ps.getD i [] ∈ ps := by
            rw [List.getD_eq_getElem ps [] hi]
            exact List.getElem_mem hi
          have hg : ((ps.getD i []).getD tm dflt).g = tm := htime _ hmem tm hact
          have htrtm : tr = tm := by rw [htr, hweq, hg]
          subst htrtm
          refine ⟨⟨i, j, hj, hi, hact, hjact, by rw [← hweq]; exact hjeq⟩, ?_, ?_⟩
          · intro u hu
            exact not_conflict_of_stepScan_none ps u (haft u hu)
          · exact ⟨i, hi, hact, by rw [hw]; exact hweq⟩
  · intro hconf
    obtain ⟨u, hconfu⟩ := hconf
    have hsome := isSolOuter_isSome ps st.k hk (maxPathLen ps + 2) 0 0 true none
      (fun h0 => ⟨by omega, by omega⟩)
    obtain ⟨r, hr⟩ := Option.isSome_iff_exists.mp hsome
    obtain ⟨v', c'⟩ := r
    rcases isSolOuter_spec ps st.k hk (maxPathLen ps + 2) 0 0 true none v' c'
        hempty hr with
      ⟨hall, hv, hc⟩ | ⟨tm, w0, htm, hsw, hv, hc, haft⟩
    · exact absurd hconfu (not_conflict_of_stepScan_none ps u (hall u (Nat.zero_le u)))
    · refine ⟨w0, w0.g, ?_⟩
      unfold CBSState.is_solution
      rw [hex]
      have hgoal : (match isSolOuter ps st.k (maxPathLen ps + 2) 0 0 true none with
          | none => Res.fuelOut
          | some r => Res.ok r) = Res.ok (false, some (w0, w0.g)) := by
        rw [hr, hv, hc]
      exact hgoal

/-! ### Claim C6 -/

/-- Adding a forbidden timestep keeps every previously forbidden pair. -/
theorem constrainedAt_consAdd_mono : ∀ (ac : Cons) (pos2 : Int × Int) (t2 : Nat)
    (pos : Int × Int) (t : Nat),
    constrainedAt ac pos t = true → constrainedAt (consAdd ac pos2 t2) pos t = true := by
  intro ac
  induction ac with
  | nil => intro pos2 t2 pos t h; simp [constrainedAt, consLookup] at h
  | cons e rest ih =>
    intro pos2 t2 pos t h
    by_cases h2 : (e.1 == pos2) = true
    · rw [show consAdd (e :: rest) pos2 t2 =
          (e.1, if e.2.contains t2 then e.2 else e.2 ++ [t2]) :: rest by
        simp only [consAdd]; rw [if_pos h2]]
      by_cases hp : (e.1 == pos) = true
      · unfold constrainedAt consLookup at h ⊢
        simp only [List.find?_cons, hp] at h ⊢
        by_cases hmem : e.2.contains t2 = true
        · rw [if_pos hmem]; exact h
        · rw [if_neg hmem]
          simp only [List.contains_eq_any_beq, List.any_append] at h ⊢
          rw [h]
          rfl
      · unfold constrainedAt consLookup at h ⊢
        simp only [List.find?_cons, hp] at h ⊢
        exact h
    · rw [show consAdd (e :: rest) pos2 t2 = e :: consAdd rest pos2 t2 by
        simp only [consAdd]; rw [if_neg h2]]
      by_cases hp : (e.1 == pos) = true
      · unfold constrainedAt consLookup at h ⊢
        simp only [List.find?_cons, hp] at h ⊢
        exact h
      · unfold constrainedAt consLookup at h ⊢
        simp only [List.find?_cons, hp] at h ⊢
        exact ih pos2 t2 pos t h

/-- Adding a forbidden timestep makes the pair forbidden. -/
theorem constrainedAt_consAdd_self : ∀ (ac : Cons) (pos : Int × Int) (t : Nat),
    constrainedAt (consAdd ac pos t) pos t = true := by
  intro ac
  induction ac with
  | nil =>
    intro pos t
    unfold consAdd constrainedAt consLookup
    simp [List.find?_cons]
  | cons e rest ih =>
    intro pos t
    by_cases h2 : (e.1 == pos) = true
    · rw [show consAdd (e :: rest) pos t =
          (e.1, if e.2.contains t then e.2 else e.2 ++ [t]) :: rest by
        simp only [consAdd]; rw [if_pos h2]]
      unfold constrainedAt consLookup
      simp only [List.find?_cons, h2]
      by_cases hmem : e.2.contains t = true
      · rw [if_pos hmem]; exact hmem
      · rw [if_neg hmem]
        simp [List.contains_eq_any_beq, List.any_append]
    · rw [show consAdd (e :: rest) pos t = e :: consAdd rest pos t by
        simp only [consAdd]; rw [if_neg h2]]
      unfold constrainedAt consLookup
      simp only [List.find?_cons, h2]
      exact ih pos t

/-- Indexing into a pointwise modification of a table list. -/
theorem getD_modify (l : List Cons) (f : Cons → Cons) (a i : Nat) :
    (l.modify f a).getD i [] =
      if a = i ∧ i < l.length then f (l.getD i []) else l.getD i [] := by
  rw [List.getD_eq_getElem?_getD, List.getD_eq_getElem?_getD, List.getElem?_modify]
  by_cases hi : i < l.length
  · rw [List.getElem?_eq_getElem hi]
    by_cases ha : a = i
    · simp [ha, hi, List.getD_eq_getElem l [] hi]
    · simp [ha, hi, List.getD_eq_getElem l [] hi]
  · rw [List.getElem?_eq_none (Nat.le_of_not_lt hi)]
    simp [hi]

/-- C6 (amended): a non-solution node whose conflict involves at least two
agents gets exactly two children from successors; each child carries a copy
of the parent constraint tables in which the conflict (cell, timestep) is
added for one of the two chosen agents — a no-op when that entry is already
present — so every child constraint table contains the parent table:
constraints are never removed. -/
theorem C6_amended_two_children_superset (st : CBSState) (ps : List (List State))
    (cs : State) (ct : Nat)
    (hex : st.extracted = some ps)
    (hsol : st.is_solution = .ok (false, some (cs, ct)))
    (hag : 2 ≤ (conflictAgents st ps cs ct).length) :
    st.successors = .ok [branchChild st cs ct ((conflictAgents st ps cs ct).getD 0 0),
                         branchChild st cs ct ((conflictAgents st ps cs ct).getD 1 0)] ∧
    (∀ agent, (branchChild st cs ct agent).constraints =
      st.constraints.modify (fun ac => consAdd ac (cs.x, cs.y) ct) agent) ∧
    (∀ agent a pos t, constrainedAt (st.constraints.getD a []) pos t = true →
      constrainedAt ((branchChild st cs ct agent).constraints.getD a []) pos t = true) ∧
    (∀ agent, agent < st.constraints.length →
      constrainedAt ((branchChild st cs ct agent).constraints.getD agent [])
        (cs.x, cs.y) ct = true) := by
  refine ⟨?_, fun agent => rfl, ?_, ?_⟩
  · unfold CBSState.successors
    rw [hsol]
    dsimp only
    rw [hex]
    dsimp only
    rw [if_pos hag]
  · intro agent a pos t h
    show constrainedAt
      ((st.constraints.modify (fun ac => consAdd ac (cs.x, cs.y) ct) agent).getD a []) pos t
        = true
    rw [getD_modify]
    by_cases hcond : agent = a ∧ a < st.constraints.length
    · rw [if_pos hcond]
      exact constrainedAt_consAdd_mono _ _ _ _ _ h
    · rw [if_neg hcond]
      exact h
  · intro agent hlt
    show constrainedAt
      ((st.constraints.modify (fun ac => consAdd ac (cs.x, cs.y) ct) agent).getD agent [])
        (cs.x, cs.y) ct = true
    rw [getD_modify, if_pos ⟨rfl, hlt⟩]
    exact constrainedAt_consAdd_self _ _ _

/-- Two agents sharing start and goal cell (0,0), with the conflict cell
already forbidden for agent 0 at timestep 0 in the parent. -/
def c6base : CBSState :=
  (CBSState.init map2x1 [State.init 0 0, State.init 0 0]
    [State.init 0 0, State.init 0 0]).set_constraint (State.init 0 0) 0 0

/-- Counterexample to C6: after computing the parent, branching adds the
already present constraint again, so the first child carries constraint
tables EQUAL to the parent tables — not the parent tables with exactly one
additional forbidden entry. -/
theorem C6_counterexample_child_equals_parent :
    ∃ P, CBSState.compute_cost 30 c6base = .ok P ∧
      ∃ c1 c2, P.successors = .ok [c1, c2] ∧ c1.constraints = P.constraints :=
  ⟨_, rfl, _, _, rfl, by decide⟩

/-- Parent of the three-cell corridor head-on instance. -/
def w3base : CBSState :=
  CBSState.init map3x1 [State.init 0 0, State.init 2 0] [State.init 2 0, State.init 0 0]

/-- Witness for C6 (amended) at the computed head-on corridor node. -/
theorem C6_amended_witness :
    ∃ P ps cs ct, CBSState.compute_cost 40 w3base = .ok P ∧ P.extracted = some ps ∧
      P.is_solution = .ok (false, some (cs, ct)) ∧
      2 ≤ (conflictAgents P ps cs ct).length ∧
      P.successors = .ok [branchChild P cs ct ((conflictAgents P ps cs ct).getD 0 0),
                          branchChild P cs ct ((conflictAgents P ps cs ct).getD 1 0)] := by
  refine ⟨_, _, _, _, rfl, rfl, rfl, by decide, ?_⟩
  refine (C6_amended_two_children_superset _ _ _ _ ?_ ?_ ?_).1
  · rfl
  · rfl
  · decide

/-- Witness for C2 (amended) at the two colliding paths: the theorem applied
there names timestep 2 as the largest conflicting timestep. -/
theorem C2_amended_witness :
    ConflictAt [c2path0, c2path1] 2 ∧
    (∀ u, 2 < u → ¬ ConflictAt [c2path0, c2path1] u) ∧
    ∃ i, i < ([c2path0, c2path1] : List (List State)).length ∧
      2 < (([c2path0, c2path1] : List (List State)).getD i []).length ∧
      (State.init 2 0).set_g 2 = (([c2path0, c2path1] : List (List State)).getD i []).getD 2 dflt :=
  (C2_amended_reports_last_conflict c2st [c2path0, c2path1] (by decide) (by decide)).1
    ((State.init 2 0).set_g 2) 2 (by decide)

/-! ### A* machinery: state accessors, successor membership, node chains -/

@[simp] theorem State.x_mk (x y : Int) (g c : Nat) (p : Option State) :
    (State.mk x y g c p).x = x := rfl

@[simp] theorem State.y_mk (x y : Int) (g c : Nat) (p : Option State) :
    (State.mk x y g c p).y = y := rfl

@[simp] theorem State.g_mk (x y : Int) (g c : Nat) (p : Option State) :
    (State.mk x y g c p).g = g := rfl

@[simp] theorem State.cost_mk (x y : Int) (g c : Nat) (p : Option State) :
    (State.mk x y g c p).cost = c := rfl

@[simp] theorem State.parent_mk (x y : Int) (g c : Nat) (p : Option State) :
    (State.mk x y g c p).parent = p := rfl

@[simp] theorem State.set_g_x (s : State) (n : Nat) : (s.set_g n).x = s.x := by
  cases s; rfl

@[simp] theorem State.set_g_y (s : State) (n : Nat) : (s.set_g n).y = s.y := by
  cases s; rfl

@[simp] theorem State.set_g_g (s : State) (n : Nat) : (s.set_g n).g = n := by
  cases s; rfl

@[simp] theorem State.set_g_cost (s : State) (n : Nat) : (s.set_g n).cost = s.cost := by
  cases s; rfl

@[simp] theorem State.set_g_parent (s : State) (n : Nat) : (s.set_g n).parent = s.parent := by
  cases s; rfl

@[simp] theorem State.set_cost_x (s : State) (n : Nat) : (s.set_cost n).x = s.x := by
  cases s; rfl

@[simp] theorem State.set_cost_y (s : State) (n : Nat) : (s.set_cost n).y = s.y := by
  cases s; rfl

@[simp] theorem State.set_cost_g (s : State) (n : Nat) : (s.set_cost n).g = s.g := by
  cases s; rfl

@[simp] theorem State.set_cost_cost (s : State) (n : Nat) : (s.set_cost n).cost = n := by
  cases s; rfl

@[simp] theorem State.set_cost_parent (s : State) (n : Nat) :
    (s.set_cost n).parent = s.parent := by
  cases s; rfl

@[simp] theorem State.set_parent_x (s q : State) : (s.set_parent q).x = s.x := by
  cases s; rfl

@[simp] theorem State.set_parent_y (s q : State) : (s.set_parent q).y = s.y := by
  cases s; rfl

@[simp] theorem State.set_parent_g (s q : State) : (s.set_parent q).g = s.g := by
  cases s; rfl

@[simp] theorem State.set_parent_cost (s q : State) : (s.set_parent q).cost = s.cost := by
  cases s; rfl

@[simp] theorem State.set_parent_parent (s q : State) :
    (s.set_parent q).parent = some q := by
  cases s; rfl

@[simp] theorem astarComputeCost_x (goal s : State) : (astarComputeCost goal s).x = s.x := by
  simp [astarComputeCost]

@[simp] theorem astarComputeCost_y (goal s : State) : (astarComputeCost goal s).y = s.y := by
  simp [astarComputeCost]

@[simp] theorem astarComputeCost_g (goal s : State) : (astarComputeCost goal s).g = s.g := by
  simp [astarComputeCost]

@[simp] theorem astarComputeCost_parent (goal s : State) :
    (astarComputeCost goal s).parent = s.parent := by
  simp [astarComputeCost]

theorem astarComputeCost_cost (goal s : State) :
    (astarComputeCost goal s).cost = s.g + s.get_heuristic goal := by
  simp [astarComputeCost]

theorem get_heuristic_eq (a b s : State) (hx : a.x = b.x) (hy : a.y = b.y) :
    s.get_heuristic a = s.get_heuristic b := by
  unfold State.get_heuristic
  rw [hx, hy]

/-- Unpacking a generated successor: its timestep is the parent timestep plus
one, it is a fresh node, its cell is adjacent or equal to the parent cell,
inside the bounds, unblocked, and not forbidden at its own timestep. -/
theorem mem_successors_elim {m : GridMap} {node s : State} {cons : Cons}
    (h : s ∈ m.successors node cons) :
    s.g = node.g + 1 ∧ s.cost = 0 ∧ s.parent = none ∧
    (s.x - node.x).natAbs + (s.y - node.y).natAbs ≤ 1 ∧
    m.inBounds (s.x, s.y) = true ∧ m.isBlockedAt (s.x, s.y) = false ∧
    constrainedAt cons (s.x, s.y) (node.g + 1) = false := by
  unfold GridMap.successors at h
  obtain ⟨d, hd, hds⟩ := List.mem_filterMap.mp h
  by_cases hcond : (m.inBounds (node.x + d.1, node.y + d.2) &&
      !m.isBlockedAt (node.x + d.1, node.y + d.2) &&
      !constrainedAt cons (node.x + d.1, node.y + d.2) (node.g + 1)) = true
  · rw [if_pos hcond] at hds
    injection hds with hds
    subst hds
    have hadj : d.1.natAbs + d.2.natAbs ≤ 1 := by
      fin_cases hd <;> decide
    simp only [Bool.and_eq_true, Bool.not_eq_true'] at hcond
    obtain ⟨⟨hin, hbl⟩, hcn⟩ := hcond
    refine ⟨by simp, by simp [State.init], by simp [State.init], ?_, ?_, ?_, ?_⟩
    · simp only [State.set_g_x, State.set_g_y, State.init]
      simp only [State.x_mk, State.y_mk]
      have e1 : node.x + d.1 - node.x = d.1 := by ring
      have e2 : node.y + d.2 - node.y = d.2 := by ring
      rw [e1, e2]
      exact hadj
    · simpa [State.init] using hin
    · simpa [State.init] using hbl
    · simpa [State.init] using hcn
  · rw [if_neg hcond] at hds
    exact Option.noConfusion hds

/-- The five moves are exactly the cell offsets of Manhattan length at most
one. -/
theorem moveOffsets_complete (d : Int × Int) (h : d.1.natAbs + d.2.natAbs ≤ 1) :
    d ∈ moveOffsets := by
  obtain ⟨dx, dy⟩ := d
  simp only at h
  have hx : dx = -1 ∨ dx = 0 ∨ dx = 1 := by omega
  have hy : dy = -1 ∨ dy = 0 ∨ dy = 1 := by omega
  rcases hx with hx | hx | hx <;> rcases hy with hy | hy | hy <;>
    subst hx <;> subst hy <;> simp_all [moveOffsets]

/-- Packing a successor: an adjacent-or-equal, in-bounds, unblocked and
unforbidden destination at the next timestep is generated. -/
theorem mem_successors_intro {m : GridMap} (node : State) {cons : Cons} (q : State)
    (hadj : (q.x - node.x).natAbs + (q.y - node.y).natAbs ≤ 1)
    (hg : q.g = node.g + 1)
    (hin : m.inBounds (q.x, q.y) = true)
    (hbl : m.isBlockedAt (q.x, q.y) = false)
    (hcn : constrainedAt cons (q.x, q.y) (node.g + 1) = false) :
    (State.init q.x q.y).set_g (node.g + 1) ∈ m.successors node cons := by
  unfold GridMap.successors
  apply List.mem_filterMap.mpr
  refine ⟨(q.x - node.x, q.y - node.y), moveOffsets_complete _ (by simpa using hadj), ?_⟩
  have ex : node.x + (q.x - node.x) = q.x := by ring
  have ey : node.y + (q.y - node.y) = q.y := by ring
  simp only [ex, ey]
  rw [if_pos]
  rw [hin, hbl, hcn]
  rfl

/-- One feasible expansion step: the next cell is adjacent or equal, the
timestep advances by one, the destination is inside bounds, unblocked, and
not forbidden at its arrival time. -/
def stepFrom (m : GridMap) (cons : Cons) (a w : State) : Prop :=
  (w.x - a.x).natAbs + (w.y - a.y).natAbs ≤ 1 ∧ w.g = a.g + 1 ∧
  m.inBounds (w.x, w.y) = true ∧ m.isBlockedAt (w.x, w.y) = false ∧
  constrainedAt cons (w.x, w.y) w.g = false

/-- A chain of feasible expansion steps from a previous state. -/
def FeasSteps (m : GridMap) (cons : Cons) : State → List State → Prop
  | _, [] => True
  | prev, n :: rest => stepFrom m cons prev n ∧ FeasSteps m cons n rest

/-- One feasible step can be appended at the end of a chain. -/
theorem feasSteps_append (m : GridMap) (cons : Cons) :
    ∀ (l : List State) (prev w : State), FeasSteps m cons prev l →
      stepFrom m cons (l.getLastD prev) w → FeasSteps m cons prev (l ++ [w]) := by
  intro l
  induction l with
  | nil =>
    intro prev w hf hs
    exact ⟨by simpa using hs, trivial⟩
  | cons n rest ih =>
    intro prev w hf hs
    obtain ⟨h1, h2⟩ := hf
    refine ⟨h1, ih n w h2 ?_⟩
    rw [List.getLastD_cons] at hs
    exact hs

/-- A chain stays feasible when the constraint table shrinks pointwise. -/
theorem feasSteps_mono (m : GridMap) (consSmall consBig : Cons)
    (hmono : ∀ pos t, constrainedAt consSmall pos t = true →
      constrainedAt consBig pos t = true) :
    ∀ (l : List State) (prev : State), FeasSteps m consBig prev l →
      FeasSteps m consSmall prev l := by
  intro l
  induction l with
  | nil => intro prev h; trivial
  | cons n rest ih =>
    intro prev h
    obtain ⟨⟨ha, hg, hin, hbl, hcn⟩, h2⟩ := h
    refine ⟨⟨ha, hg, hin, hbl, ?_⟩, ih n h2⟩
    cases hb : constrainedAt consSmall (n.x, n.y) n.g with
    | false => rfl
    | true => rw [hmono _ _ hb] at hcn; exact hcn

/-- The nodes a run of the A* search can hold in its OPEN queue: the f-valued
start, or a generated successor of a held node, f-valued and linked to it. -/
inductive GoodNode (m : GridMap) (cons : Cons) (goal start1 : State) : State → Prop where
  | base : GoodNode m cons goal start1 start1
  | step (node raw : State) : GoodNode m cons goal start1 node →
      raw ∈ m.successors node cons →
      GoodNode m cons goal start1 ((astarComputeCost goal raw).set_parent node)

/-- Every held node carries the f-value cost = g + heuristic. -/
theorem goodnode_cost (m : GridMap) (cons : Cons) (goal start1 : State)
    (hstart : start1.cost = start1.g + start1.get_heuristic goal) :
    ∀ n, GoodNode m cons goal start1 n → n.cost = n.g + n.get_heuristic goal := by
  intro n hg
  induction hg with
  | base => exact hstart
  | step node raw hgood hmem ih =>
    have : ((astarComputeCost goal raw).set_parent node).cost =
        (astarComputeCost goal raw).cost := by simp
    rw [this, astarComputeCost_cost]
    unfold State.get_heuristic
    simp

/-- Every held node other than the start respects its own constraint. -/
theorem goodnode_constraint (m : GridMap) (cons : Cons) (goal start1 : State) :
    ∀ n, GoodNode m cons goal start1 n →
      n = start1 ∨ constrainedAt cons (n.x, n.y) n.g = false := by
  intro n hg
  induction hg with
  | base => exact Or.inl rfl
  | step node raw hgood hmem ih =>
    right
    obtain ⟨hg1, -, -, -, -, -, hcn⟩ := mem_successors_elim hmem
    simpa [hg1] using hcn

/-- The recovered path of a held node is the start followed by a feasible
chain ending at the node, whose length is the g-value gained. -/
theorem goodnode_chain (m : GridMap) (cons : Cons) (goal start1 : State)
    (hpar : start1.parent = none) :
    ∀ n, GoodNode m cons goal start1 n →
      ∃ rest, recover_path n = start1 :: rest ∧ FeasSteps m cons start1 rest ∧
        n.g = start1.g + rest.length ∧ rest.getLastD start1 = n := by
  intro n hg
  induction hg with
  | base =>
    refine ⟨[], ?_, trivial, by simp, rfl⟩
    rw [recover_path_parent_none hpar]
  | step node raw hgood hmem ih =>
    obtain ⟨rest, hrp, hfs, hng, hlast⟩ := ih
    obtain ⟨hg1, hc0, hp0, hadj, hin, hbl, hcn⟩ := mem_successors_elim hmem
    refine ⟨rest ++ [(astarComputeCost goal raw).set_parent node], ?_, ?_, ?_, ?_⟩
    · rw [recover_path_set_parent, hrp]
      rfl
    · apply feasSteps_append m cons rest start1 _ hfs
      rw [hlast]
      refine ⟨by simpa using hadj, by simpa using hg1, by simpa using hin,
        by simpa using hbl, ?_⟩
      simpa [hg1] using hcn
    · simp [hg1, hng]
      omega
    · rw [List.getLastD_concat]

/-! Lemmas about the per-child body and the CLOSED mapping. -/

theorem closedLookup_insert_self (cl : Closed) (k : Int × Nat) (s : State) :
    closedLookup (closedInsert cl k s) k = some s := by
  induction cl with
  | nil => simp [closedInsert, closedLookup, List.find?_cons]
  | cons e rest ih =>
    by_cases he : (e.1 == k) = true
    · rw [show closedInsert (e :: rest) k s = (k, s) :: rest by
        simp only [closedInsert]; rw [if_pos he]]
      simp [closedLookup, List.find?_cons]
    · rw [show closedInsert (e :: rest) k s = e :: closedInsert rest k s by
        simp only [closedInsert]; rw [if_neg he]]
      unfold closedLookup
      simp only [List.find?_cons, he]
      exact ih

theorem closedLookup_insert_ne (cl : Closed) (k k2 : Int × Nat) (s : State)
    (hne : k2 ≠ k) : closedLookup (closedInsert cl k s) k2 = closedLookup cl k2 := by
  induction cl with
  | nil =>
    simp only [closedInsert, closedLookup, List.find?_cons, List.find?_nil]
    have : ((k, s).1 == k2) = false := by
      simp only [beq_eq_false_iff_ne, ne_eq]
      intro hh
      exact hne hh.symm
    rw [this]
  | cons e rest ih =>
    by_cases he : (e.1 == k) = true
    · rw [show closedInsert (e :: rest) k s = (k, s) :: rest by
        simp only [closedInsert]; rw [if_pos he]]
      unfold closedLookup
      simp only [List.find?_cons]
      have h2 : ((k, s).1 == k2) = false := by
        simp only [beq_eq_false_iff_ne, ne_eq]
        intro hh
        exact hne hh.symm
      rw [h2]
      have h3 : (e.1 == k2) = false := by
        have hek : e.1 = k := by simpa using he
        simp only [beq_eq_false_iff_ne, ne_eq, hek]
        intro hh
        exact hne hh.symm
      rw [h3]
    · rw [show closedInsert (e :: rest) k s = e :: closedInsert rest k s by
        simp only [closedInsert]; rw [if_neg he]]
      unfold closedLookup
      simp only [List.find?_cons]
      cases he2 : (e.1 == k2) with
      | true => rfl
      | false => exact ih

theorem pcStep2_open_mem (W : Int) (goal node c0 : State) (op : List State)
    (cl : Closed) (w : State) (h : w ∈ (pcStep2 W goal node c0 op cl).1) :
    w ∈ op ∨ w = (astarComputeCost goal c0).set_parent node := by
  unfold pcStep2 at h
  split at h
  · split at h
    · rcases mem_heappush h with h | h
      · exact Or.inr h
      · exact Or.inl h
    · exact Or.inl h
  · exact Or.inl h

theorem pcStep_open_mem (W : Int) (goal node c0 : State) (op : List State)
    (cl : Closed) (w : State) (h : w ∈ (pcStep W goal node c0 op cl).1) :
    w ∈ op ∨ w = (astarComputeCost goal c0).set_parent node := by
  unfold pcStep at h
  by_cases hn : (closedLookup cl (hashKey W c0)).isNone = true
  · rw [if_pos hn] at h
    rcases pcStep2_open_mem _ _ _ _ _ _ _ h with h | h
    · rcases mem_heappush h with h | h
      · exact Or.inr h
      · exact Or.inl h
    · exact Or.inr h
  · rw [if_neg hn] at h
    exact pcStep2_open_mem _ _ _ _ _ _ _ h

theorem pcStep2_open_sub (W : Int) (goal node c0 : State) (op : List State)
    (cl : Closed) (w : State) (h : w ∈ op) : w ∈ (pcStep2 W goal node c0 op cl).1 := by
  unfold pcStep2
  split
  · split
    · exact mem_heappush_left _ h
    · exact h
  · exact h

theorem pcStep_open_sub (W : Int) (goal node c0 : State) (op : List State)
    (cl : Closed) (w : State) (h : w ∈ op) : w ∈ (pcStep W goal node c0 op cl).1 := by
  unfold pcStep
  by_cases hn : (closedLookup cl (hashKey W c0)).isNone = true
  · rw [if_pos hn]
    exact pcStep2_open_sub _ _ _ _ _ _ _ (mem_heappush_left _ h)
  · rw [if_neg hn]
    exact pcStep2_open_sub _ _ _ _ _ _ _ h

theorem processChildren_mem (W : Int) (goal node : State) :
    ∀ (children op : List State) (cl : Closed) (w : State),
      w ∈ (processChildren W goal node children op cl).1 →
      w ∈ op ∨ ∃ raw ∈ children, w = (astarComputeCost goal raw).set_parent node := by
  intro children
  induction children with
  | nil => intro op cl w h; exact Or.inl h
  | cons c0 cs ih =>
    intro op cl w h
    rcases ih _ _ w h with h2 | ⟨raw, hraw, hw⟩
    · rcases pcStep_open_mem _ _ _ _ _ _ _ h2 with h3 | h3
      · exact Or.inl h3
      · exact Or.inr ⟨c0, List.mem_cons_self _ _, h3⟩
    · exact Or.inr ⟨raw, List.mem_cons_of_mem _ hraw, hw⟩

theorem processChildren_open_sub (W : Int) (goal node : State) :
    ∀ (children op : List State) (cl : Closed) (w : State),
      w ∈ op → w ∈ (processChildren W goal node children op cl).1 := by
  intro children
  induction children with
  | nil => intro op cl w h; exact h
  | cons c0 cs ih =>
    intro op cl w h
    exact ih _ _ w (pcStep_open_sub _ _ _ _ _ _ _ h)

/-- Soundness of the A* loop: the failure result carries cost -1, and a
returned path is the recovered path of a held goal node whose g-value is the
returned cost. -/
theorem astarLoop_sound (m : GridMap) (goal : State) (cons : Cons) (start1 : State) :
    ∀ (fuel : Nat) (op : List State) (cl : Closed) (c : Int)
      (r : Option (List State)),
      (∀ w ∈ op, GoodNode m cons goal start1 w) →
      astarLoop m goal cons fuel op cl = some (c, r) →
      (r = none → c = -1) ∧
      (∀ p, r = some p → ∃ n, GoodNode m cons goal start1 n ∧ p = recover_path n ∧
        c = (n.g : Int) ∧ n.is_goal goal = true) := by
  intro fuel
  induction fuel with
  | zero => intro op cl c r hinv h; exact Option.noConfusion h
  | succ fuel ih =>
    intro op cl c r hinv h
    simp only [astarLoop] at h
    cases hpop : popMin op with
    | none =>
      rw [hpop] at h
      injection h with hpr
      have hc : c = -1 := (congrArg Prod.fst hpr).symm
      have hr : r = none := (congrArg Prod.snd hpr).symm
      constructor
      · intro _; exact hc
      · intro p hp; rw [hr] at hp; exact Option.noConfusion hp
    | some pr =>
      rw [hpop] at h
      dsimp only at h
      by_cases hg : pr.1.is_goal goal = true
      · rw [if_pos hg] at h
        injection h with hpr
        have hc : c = (pr.1.g : Int) := (congrArg Prod.fst hpr).symm
        have hr : r = some (recover_path pr.1) := (congrArg Prod.snd hpr).symm
        constructor
        · intro h0; rw [h0] at hr; exact Option.noConfusion hr
        · intro p hp
          refine ⟨pr.1, hinv pr.1 (popMin_mem (by rw [hpop])), ?_, hc, hg⟩
          rw [hp] at hr
          exact (Option.some.injEq _ _ ▸ hr ▸ rfl : p = recover_path pr.1)
      · rw [if_neg hg] at h
        apply ih _ _ c r _ h
        intro w hw
        rcases processChildren_mem m.width goal pr.1 (m.successors pr.1 cons) pr.2 cl w hw
          with h2 | ⟨raw, hraw, hw2⟩
        · exact hinv w (popMin_rest_sub (by rw [hpop]) w h2)
        · rw [hw2]
          exact GoodNode.step pr.1 raw (hinv pr.1 (popMin_mem (by rw [hpop]))) hraw

/-! ### Claim C5 -/

/-- C5: AStar.search yields the failure result exactly by exhaustion: an
empty open queue immediately returns (-1, no path), a returned result with
no path always carries cost -1, and every successful result carries the
nonnegative g-value of the popped goal node together with the ordered
start-to-goal path recovered by following the parent links back from that
node and reversing. -/
theorem C5_failure_shape_and_success_path (m : GridMap) (goal : State) (cons : Cons) :
    (∀ (fuel : Nat) (cl : Closed),
      astarLoop m goal cons (fuel + 1) [] cl = some (-1, none)) ∧
    (∀ (o0 : List State) (c0 : Closed) (fuel : Nat) (start : State),
      start.parent = none →
      ∀ (c : Int) (r : Option (List State)),
        AStar.search m o0 c0 fuel start goal cons = some (c, r) →
        (r = none → c = -1) ∧
        (∀ p, r = some p →
          0 ≤ c ∧ p.head? = some (astarComputeCost goal start) ∧
          ∃ n, p = recover_path n ∧ p.getLast? = some n ∧ n.is_goal goal = true ∧
            c = (n.g : Int))) := by
  constructor
  · intro fuel cl
    simp [astarLoop, popMin]
  · intro o0 c0 fuel start hpar c r hsr
    have hsr2 : astarLoop m goal cons fuel
        (heappush [] (astarComputeCost goal start))
        (closedInsert [] (hashKey m.width (astarComputeCost goal start))
          (astarComputeCost goal start)) = some (c, r) := hsr
    have hpar1 : (astarComputeCost goal start).parent = none := by
      rw [astarComputeCost_parent]; exact hpar
    have hsound := astarLoop_sound m goal cons (astarComputeCost goal start) fuel
      _ _ c r (by
        intro w hw
        rcases mem_heappush hw with hw | hw
        · rw [hw]; exact GoodNode.base
        · simp at hw) hsr2
    refine ⟨hsound.1, ?_⟩
    intro p hp
    obtain ⟨n, hgood, hpn, hc, hgl⟩ := hsound.2 p hp
    obtain ⟨rest, hrp, -, -, -⟩ :=
      goodnode_chain m cons goal (astarComputeCost goal start) hpar1 n hgood
    refine ⟨by rw [hc]; exact Int.natCast_nonneg _, ?_, n, hpn, ?_, hgl, hc⟩
    · rw [hpn, hrp]
      rfl
    · rw [hpn]
      exact recover_path_getLast n

/-- Witness for C5 at a concrete successful two-cell search. -/
theorem C5_witness :
    ∃ (c : Int) (r : Option (List State)),
      AStar.search map2x1 [] [] 30 (State.init 0 0) (State.init 1 0) [] = some (c, r) ∧
      ((r = none → c = -1) ∧
        (∀ p, r = some p →
          0 ≤ c ∧ p.head? = some (astarComputeCost (State.init 1 0) (State.init 0 0)) ∧
          ∃ n, p = recover_path n ∧ p.getLast? = some n ∧
            n.is_goal (State.init 1 0) = true ∧ c = (n.g : Int))) :=
  ⟨_, _, rfl,
    (C5_failure_shape_and_success_path map2x1 (State.init 1 0) []).2 [] [] 30
      (State.init 0 0) rfl _ _ rfl⟩

/-! ### Claim C4 -/

/-- Counterexample to C4: with start equal to the goal cell and the goal
cell forbidden at timestep 0, the search pops the start immediately and
returns a path whose final state stands on the goal cell at a forbidden
timestep — the start state is never checked against the constraints. -/
theorem C4_counterexample_start_on_forbidden_goal :
    AStar.search map2x1 [] [] 30 (State.init 0 0) (State.init 0 0) [((0, 0), [0])] =
      some (0, some [State.mk 0 0 0 0 none]) ∧
    constrainedAt [((0, 0), [0])] (0, 0) 0 = true := by
  decide

/-- C4 (amended): the search terminates successfully exactly on popping a
state whose cell equals the goal cell, with no requirement on its timestep;
the final state of a returned path is on the goal cell and either is the
(unchecked) start state itself or arrives at a timestep not forbidden for
its cell — in particular, when the start is not on the goal cell, the search
keeps searching past forbidden arrival times and never returns a final state
that violates a constraint. -/
theorem C4_amended_goal_test_and_constraints (m : GridMap) (o0 : List State)
    (c0 : Closed) (fuel : Nat) (start goal : State) (cons : Cons) :
    ∀ (c : Int) (p : List State),
      AStar.search m o0 c0 fuel start goal cons = some (c, some p) →
      ∃ n, p.getLast? = some n ∧ n.is_goal goal = true ∧
        (n = astarComputeCost goal start ∨
          constrainedAt cons (n.x, n.y) n.g = false) := by
  intro c p hsr
  have hsr2 : astarLoop m goal cons fuel
      (heappush [] (astarComputeCost goal start))
      (closedInsert [] (hashKey m.width (astarComputeCost goal start))
        (astarComputeCost goal start)) = some (c, some p) := hsr
  have hsound := astarLoop_sound m goal cons (astarComputeCost goal start) fuel
    _ _ c (some p) (by
      intro w hw
      rcases mem_heappush hw with hw | hw
      · rw [hw]; exact GoodNode.base
      · simp at hw) hsr2
  obtain ⟨n, hgood, hpn, hc, hgl⟩ := hsound.2 p rfl
  refine ⟨n, ?_, hgl, ?_⟩
  · rw [hpn]
    exact recover_path_getLast n
  · exact goodnode_constraint m cons goal (astarComputeCost goal start) n hgood

/-- Witness for C4 (amended) at the constrained start-on-goal search. -/
theorem C4_amended_witness :
    ∃ n, ([State.mk 0 0 0 0 none] : List State).getLast? = some n ∧
      n.is_goal (State.init 0 0) = true ∧
      (n = astarComputeCost (State.init 0 0) (State.init 0 0) ∨
        constrainedAt [((0, 0), [0])] (n.x, n.y) n.g = false) :=
  C4_amended_goal_test_and_constraints map2x1 [] [] 30 (State.init 0 0)
    (State.init 0 0) [((0, 0), [0])] 0 [State.mk 0 0 0 0 none] (by decide)

/-! ### Optimality of the constrained search -/

/-- Injectivity of the cell encoding y * W + x over cells with x inside
[0, W). -/
theorem cell_encode_inj (W x1 y1 x2 y2 : Int) (h1 : 0 ≤ x1) (h1W : x1 < W)
    (h2 : 0 ≤ x2) (h2W : x2 < W) (heq : y1 * W + x1 = y2 * W + x2) :
    x1 = x2 ∧ y1 = y2 := by
  have hW : 0 ≤ W := le_trans h1 (le_of_lt h1W)
  have hy : y1 = y2 := by
    by_contra hy
    rcases lt_or_gt_of_ne hy with hlt | hgt
    · have hle : y1 + 1 ≤ y2 := hlt
      have hmul : (y1 + 1) * W ≤ y2 * W := mul_le_mul_of_nonneg_right hle hW
      have hexp : (y1 + 1) * W = y1 * W + W := by ring
      linarith
    · have hle : y2 + 1 ≤ y1 := hgt
      have hmul : (y2 + 1) * W ≤ y1 * W := mul_le_mul_of_nonneg_right hle hW
      have hexp : (y2 + 1) * W = y2 * W + W := by ring
      linarith
  refine ⟨?_, hy⟩
  rw [hy] at heq
  linarith

/-- Timestep of the chain node at an index. -/
theorem feasSteps_getD_g (m : GridMap) (cons : Cons) :
    ∀ (l : List State) (prev : State), FeasSteps m cons prev l →
      ∀ i, i < l.length → (l.getD i dflt).g = prev.g + i + 1 := by
  intro l
  induction l with
  | nil => intro prev h i hi; simp at hi
  | cons n rest ih =>
    intro prev h i hi
    obtain ⟨⟨-, hg, -, -, -⟩, h2⟩ := h
    cases i with
    | zero => simpa using hg
    | succ i =>
      have := ih n h2 i (by simpa using hi)
      simp only [List.getD_cons_succ]
      omega

/-- The step of the chain at an index. -/
theorem feasSteps_getD_step (m : GridMap) (cons : Cons) :
    ∀ (l : List State) (prev : State), FeasSteps m cons prev l →
      ∀ i, i < l.length →
        stepFrom m cons ((prev :: l).getD i dflt) (l.getD i dflt) := by
  intro l
  induction l with
  | nil => intro prev h i hi; simp at hi
  | cons n rest ih =>
    intro prev h i hi
    obtain ⟨h1, h2⟩ := h
    cases i with
    | zero => simpa using h1
    | succ i =>
      have := ih n h2 i (by simpa using hi)
      simpa using this

/-- A suffix of a feasible chain is a feasible chain from the node at that
index. -/
theorem feasSteps_suffix (m : GridMap) (cons : Cons) :
    ∀ (l : List State) (prev : State), FeasSteps m cons prev l →
      ∀ i, i ≤ l.length →
        FeasSteps m cons ((prev :: l).getD i dflt) (l.drop i) := by
  intro l
  induction l with
  | nil =>
    intro prev h i hi
    have : i = 0 := by simpa using hi
    subst this
    exact h
  | cons n rest ih =>
    intro prev h i hi
    obtain ⟨h1, h2⟩ := h
    cases i with
    | zero => exact ⟨h1, h2⟩
    | succ i =>
      have := ih n h2 i (by simpa using hi)
      simpa using this

/-- The last node of a suffix is the last node of the chain. -/
theorem getLastD_drop_path :
    ∀ (l : List State) (prev : State) (i : Nat), i ≤ l.length →
      (l.drop i).getLastD ((prev :: l).getD i dflt) = l.getLastD prev := by
  intro l
  induction l with
  | nil =>
    intro prev i hi
    have : i = 0 := by simpa using hi
    subst this
    rfl
  | cons n rest ih =>
    intro prev i hi
    cases i with
    | zero => simp [List.getLastD_cons]
    | succ i =>
      have := ih n i (by simpa using hi)
      simp only [List.drop_succ_cons, List.getD_cons_succ, List.getLastD_cons]
      exact this

/-- Heuristic of a state with itself as target is zero. -/
theorem get_heuristic_self (s : State) : s.get_heuristic s = 0 := by
  unfold State.get_heuristic
  simp

/-- Triangle bound: along a feasible chain the Manhattan distance to the
last node is at most the number of remaining steps. -/
theorem feasSteps_manh_last (m : GridMap) (cons : Cons) :
    ∀ (l : List State) (prev : State), FeasSteps m cons prev l →
      prev.get_heuristic (l.getLastD prev) ≤ l.length := by
  intro l
  induction l with
  | nil => intro prev h; simp [get_heuristic_self]
  | cons n rest ih =>
    intro prev h
    obtain ⟨⟨hadj, -, -, -, -⟩, h2⟩ := h
    have ihn := ih n h2
    rw [List.getLastD_cons]
    unfold State.get_heuristic at ihn ⊢
    have hx : (prev.x - (rest.getLastD n).x).natAbs ≤
        (prev.x - n.x).natAbs + (n.x - (rest.getLastD n).x).natAbs := by
      have : prev.x - (rest.getLastD n).x = (prev.x - n.x) + (n.x - (rest.getLastD n).x) := by
        ring
      rw [this]
      exact Int.natAbs_add_le _ _
    have hy : (prev.y - (rest.getLastD n).y).natAbs ≤
        (prev.y - n.y).natAbs + (n.y - (rest.getLastD n).y).natAbs := by
      have : prev.y - (rest.getLastD n).y = (prev.y - n.y) + (n.y - (rest.getLastD n).y) := by
        ring
      rw [this]
      exact Int.natAbs_add_le _ _
    have hsymx : (prev.x - n.x).natAbs = (n.x - prev.x).natAbs := by
      rw [← Int.natAbs_neg]
      congr 1
      ring
    have hsymy : (prev.y - n.y).natAbs = (n.y - prev.y).natAbs := by
      rw [← Int.natAbs_neg]
      congr 1
      ring
    simp only [List.length_cons]
    omega

/-- Manhattan distance from the chain node at an index to the last node is
bounded by the remaining length. -/
theorem feasSteps_manh_index (m : GridMap) (cons : Cons) (l : List State)
    (prev : State) (h : FeasSteps m cons prev l) (i : Nat) (hi : i ≤ l.length) :
    ((prev :: l).getD i dflt).get_heuristic (l.getLastD prev) ≤ l.length - i := by
  have hsuf := feasSteps_suffix m cons l prev h i hi
  have := feasSteps_manh_last m cons (l.drop i) ((prev :: l).getD i dflt) hsuf
  rw [getLastD_drop_path l prev i hi] at this
  simpa using this

/-- Timestep of the path node at an index. -/
theorem path_getD_g (m : GridMap) (cons : Cons) (q0 : State) (qs : List State)
    (hfeas : FeasSteps m cons q0 qs) (i : Nat) (hi : i ≤ qs.length) :
    ((q0 :: qs).getD i dflt).g = q0.g + i := by
  cases i with
  | zero => simp
  | succ i =>
    simp only [List.getD_cons_succ]
    have := feasSteps_getD_g m cons qs q0 hfeas i (by omega)
    omega

/-- The path node at the final index is the last node. -/
theorem path_getD_last (q0 : State) :
    ∀ (qs : List State), (q0 :: qs).getD qs.length dflt = qs.getLastD q0 := by
  intro qs
  induction qs generalizing q0 with
  | nil => rfl
  | cons n rest ih =>
    simp only [List.length_cons, List.getD_cons_succ, List.getLastD_cons]
    exact ih n

/-- The heuristic depends on the target cell only. -/
theorem get_heuristic_congr (a b t : State) (hx : a.x = b.x) (hy : a.y = b.y) :
    a.get_heuristic t = b.get_heuristic t := by
  unfold State.get_heuristic
  rw [hx, hy]

/-- Distinct generated successors carry distinct dedup keys. -/
theorem successors_keys_pairwise (m : GridMap) (node : State) (cons : Cons) :
    (m.successors node cons).Pairwise
      (fun a b => hashKey m.width a ≠ hashKey m.width b) := by
  unfold GridMap.successors
  rw [List.pairwise_filterMap]
  have hbase : moveOffsets.Pairwise (· ≠ ·) := by decide
  apply List.Pairwise.imp ?_ hbase
  intro d1 d2 hne x hx y hy heq
  by_cases hc1 : (m.inBounds (node.x + d1.1, node.y + d1.2) &&
      !m.isBlockedAt (node.x + d1.1, node.y + d1.2) &&
      !constrainedAt cons (node.x + d1.1, node.y + d1.2) (node.g + 1)) = true
  · rw [if_pos hc1] at hx
    by_cases hc2 : (m.inBounds (node.x + d2.1, node.y + d2.2) &&
        !m.isBlockedAt (node.x + d2.1, node.y + d2.2) &&
        !constrainedAt cons (node.x + d2.1, node.y + d2.2) (node.g + 1)) = true
    · rw [if_pos hc2] at hy
      simp only [Option.mem_def, Option.some.injEq] at hx hy
      subst hx
      subst hy
      simp only [Bool.and_eq_true] at hc1 hc2
      have hin1 := hc1.1.1
      have hin2 := hc2.1.1
      unfold GridMap.inBounds at hin1 hin2
      simp only [Bool.and_eq_true, decide_eq_true_eq] at hin1 hin2
      unfold hashKey at heq
      simp only [State.set_g_x, State.set_g_y, State.set_g_g, State.init,
        State.x_mk, State.y_mk, Prod.mk.injEq] at heq
      obtain ⟨hcell, -⟩ := heq
      have := cell_encode_inj m.width (node.x + d1.1) (node.y + d1.2)
        (node.x + d2.1) (node.y + d2.2) hin1.1.1.1 hin1.1.1.2 hin2.1.1.1 hin2.1.1.2 hcell
      apply hne
      obtain ⟨hx1, hy1⟩ := this
      obtain ⟨a1, b1⟩ := d1
      obtain ⟨a2, b2⟩ := d2
      simp only at hx1 hy1
      have : a1 = a2 := by omega
      have : b1 = b2 := by omega
      simp_all
    · rw [if_neg hc2] at hy
      simp at hy
  · rw [if_neg hc1] at hx
    simp at hx

/-- A pcStep insert touches only the key of its child. -/
theorem pcStep2_closed_other (W : Int) (goal node c0 : State) (op : List State)
    (cl : Closed) (key : Int × Nat) (hne : key ≠ hashKey W c0) :
    closedLookup (pcStep2 W goal node c0 op cl).2 key = closedLookup cl key := by
  unfold pcStep2
  split
  · split
    · exact closedLookup_insert_ne _ _ _ _ hne
    · rfl
  · rfl

theorem pcStep_closed_other (W : Int) (goal node c0 : State) (op : List State)
    (cl : Closed) (key : Int × Nat) (hne : key ≠ hashKey W c0) :
    closedLookup (pcStep W goal node c0 op cl).2 key = closedLookup cl key := by
  unfold pcStep
  by_cases hn : (closedLookup cl (hashKey W c0)).isNone = true
  · rw [if_pos hn]
    rw [pcStep2_closed_other _ _ _ _ _ _ _ hne]
    exact closedLookup_insert_ne _ _ _ _ hne
  · rw [if_neg hn]
    exact pcStep2_closed_other _ _ _ _ _ _ _ hne

/-- A child with an unseen key that no earlier child shares is pushed. -/
theorem pcStep_push (W : Int) (goal node c0 : State) (op : List State)
    (cl : Closed) (hnone : closedLookup cl (hashKey W c0) = none) :
    ((astarComputeCost goal c0).set_parent node) ∈ (pcStep W goal node c0 op cl).1 := by
  unfold pcStep
  rw [if_pos (by rw [hnone]; rfl)]
  exact pcStep2_open_sub _ _ _ _ _ _ _ (mem_heappush_self _ _)

/-- A key recorded after processing the children was recorded before or is
the key of one of the children. -/
theorem processChildren_closed_sources (W : Int) (goal node : State) :
    ∀ (children op : List State) (cl : Closed) (key : Int × Nat),
      closedLookup (processChildren W goal node children op cl).2 key ≠ none →
      closedLookup cl key ≠ none ∨ ∃ raw ∈ children, key = hashKey W raw := by
  intro children
  induction children with
  | nil => intro op cl key h; exact Or.inl h
  | cons c0 cs ih =>
    intro op cl key h
    rcases ih _ _ key h with h2 | ⟨raw, hraw, hkey⟩
    · by_cases hk : key = hashKey W c0
      · exact Or.inr ⟨c0, List.mem_cons_self _ _, hk⟩
      · rw [pcStep_closed_other _ _ _ _ _ _ _ hk] at h2
        exact Or.inl h2
    · exact Or.inr ⟨raw, List.mem_cons_of_mem _ hraw, hkey⟩

/-- A generated child whose key is unseen (and whose key no sibling shares)
ends up in the queue after the children are processed. -/
theorem processChildren_push (W : Int) (goal node : State) :
    ∀ (children op : List State) (cl : Closed) (raw : State), raw ∈ children →
      closedLookup cl (hashKey W raw) = none →
      children.Pairwise (fun a b => hashKey W a ≠ hashKey W b) →
      ((astarComputeCost goal raw).set_parent node) ∈
        (processChildren W goal node children op cl).1 := by
  intro children
  induction children with
  | nil => intro op cl raw h; simp at h
  | cons c0 cs ih =>
    intro op cl raw hmem hnone hpw
    rcases List.mem_cons.mp hmem with hmem | hmem
    · subst hmem
      exact processChildren_open_sub W goal node cs (pcStep W goal node raw op cl).1
        (pcStep W goal node raw op cl).2 _ (pcStep_push W goal node raw op cl hnone)
    · have hne : hashKey W raw ≠ hashKey W c0 := by
        intro hk
        exact (List.pairwise_cons.mp hpw).1 raw hmem hk.symm
      apply ih _ _ raw hmem
      · rw [pcStep_closed_other _ _ _ _ _ _ _ hne]
        exact hnone
      · exact (List.pairwise_cons.mp hpw).2

/-- Optimality invariant of the A* loop: fix a feasible chain from q0 to the
goal cell.  As long as some OPEN node shares the space-time coordinates of a
chain node whose chain successors are all unrecorded, any returned cost is
at most the cost of the chain. -/
theorem astarLoop_opt (m : GridMap) (goal : State) (cons : Cons) (q0 : State)
    (qs : List State) (hfeas : FeasSteps m cons q0 qs)
    (hgoal : (qs.getLastD q0).is_goal goal = true) :
    ∀ (fuel : Nat) (op : List State) (cl : Closed) (c : Int)
      (r : Option (List State)),
      (∀ w ∈ op, w.cost = w.g + w.get_heuristic goal) →
      (∃ i, i ≤ qs.length ∧
        (∃ w ∈ op, w.x = ((q0 :: qs).getD i dflt).x ∧
          w.y = ((q0 :: qs).getD i dflt).y ∧ w.g = ((q0 :: qs).getD i dflt).g) ∧
        (∀ j, i < j → j ≤ qs.length →
          closedLookup cl (hashKey m.width ((q0 :: qs).getD j dflt)) = none)) →
      astarLoop m goal cons fuel op cl = some (c, r) →
      c ≤ (q0.g : Int) + qs.length := by
  intro fuel
  induction fuel with
  | zero => intro op cl c r hcost hinv h; exact Option.noConfusion h
  | succ fuel ih =>
    intro op cl c r hcost hinv h
    simp only [astarLoop] at h
    cases hpop : popMin op with
    | none =>
      rw [hpop] at h
      injection h with hpr
      have hc : c = -1 := (congrArg Prod.fst hpr).symm
      rw [hc]
      have hge : (0:Int) ≤ (q0.g : Int) + qs.length :=
        add_nonneg (Int.natCast_nonneg _) (Int.natCast_nonneg _)
      omega
    | some pr =>
      rw [hpop] at h
      dsimp only at h
      obtain ⟨i, hiN, ⟨w, hwop, hwx, hwy, hwg⟩, hsuffix⟩ := hinv
      by_cases hg : pr.1.is_goal goal = true
      · rw [if_pos hg] at h
        injection h with hpr2
        have hc : c = (pr.1.g : Int) := (congrArg Prod.fst hpr2).symm
        have hnode_mem : pr.1 ∈ op := popMin_mem (by rw [hpop])
        have hnode_cost := hcost pr.1 hnode_mem
        have hw_cost := hcost w hwop
        have hmin := popMin_min (show popMin op = some (pr.1, pr.2) by rw [hpop]) w hwop
        have hqg := path_getD_g m cons q0 qs hfeas i hiN
        have hwh : w.get_heuristic goal = ((q0 :: qs).getD i dflt).get_heuristic goal :=
          get_heuristic_congr _ _ _ hwx hwy
        have hlastg : (qs.getLastD q0).x = goal.x ∧ (qs.getLastD q0).y = goal.y := by
          unfold State.is_goal at hgoal
          simp only [Bool.and_eq_true, beq_iff_eq] at hgoal
          exact hgoal
        have hmanh := feasSteps_manh_index m cons qs q0 hfeas i hiN
        have hhg : ((q0 :: qs).getD i dflt).get_heuristic goal =
            ((q0 :: qs).getD i dflt).get_heuristic (qs.getLastD q0) :=
          get_heuristic_eq _ _ _ hlastg.1.symm hlastg.2.symm
        have hbound : pr.1.g ≤ q0.g + qs.length := by
          have h1 : pr.1.g ≤ pr.1.cost := by rw [hnode_cost]; omega
          have h3 : w.cost = w.g + w.get_heuristic goal := hw_cost
          rw [hwh, hhg, hwg, hqg] at h3
          omega
        rw [hc]
        exact_mod_cast hbound
      · rw [if_neg hg] at h
        refine ih _ _ c r ?_ ?_ h
        · intro v hv
          rcases processChildren_mem m.width goal pr.1 (m.successors pr.1 cons)
            pr.2 cl v hv with h2 | ⟨raw, hraw, hv2⟩
          · exact hcost v (popMin_rest_sub (by rw [hpop]) v h2)
          · rw [hv2]
            have : ((astarComputeCost goal raw).set_parent pr.1).cost =
                (astarComputeCost goal raw).cost := by simp
            rw [this, astarComputeCost_cost]
            unfold State.get_heuristic
            simp
        · by_cases hmatch : ∃ j, i < j ∧ j ≤ qs.length ∧
              ∃ raw ∈ m.successors pr.1 cons,
                hashKey m.width raw = hashKey m.width ((q0 :: qs).getD j dflt)
          · obtain ⟨j, hij, hjN, raw, hrawmem, hkey⟩ := hmatch
            have hpush := processChildren_push m.width goal pr.1
              (m.successors pr.1 cons) pr.2 cl raw hrawmem
              (by rw [hkey]; exact hsuffix j hij hjN)
              (successors_keys_pairwise m pr.1 cons)
            obtain ⟨hrg, -, -, -, hrin, -, -⟩ := mem_successors_elim hrawmem
            have hjpos : 1 ≤ j := by omega
            have hstep := feasSteps_getD_step m cons qs q0 hfeas (j - 1) (by omega)
            have hjidx : (q0 :: qs).getD j dflt = qs.getD (j - 1) dflt := by
              cases j with
              | zero => omega
              | succ j => simp
            unfold hashKey at hkey
            simp only [Prod.mk.injEq] at hkey
            obtain ⟨hcellkey, hgkey⟩ := hkey
            unfold GridMap.inBounds at hrin
            simp only [Bool.and_eq_true, decide_eq_true_eq] at hrin
            have hqin : m.inBounds (((q0 :: qs).getD j dflt).x,
                ((q0 :: qs).getD j dflt).y) = true := by
              rw [hjidx]
              exact hstep.2.2.1
            unfold GridMap.inBounds at hqin
            simp only [Bool.and_eq_true, decide_eq_true_eq] at hqin
            have hcells := cell_encode_inj m.width raw.x raw.y
              ((q0 :: qs).getD j dflt).x ((q0 :: qs).getD j dflt).y
              hrin.1.1.1 hrin.1.1.2 hqin.1.1.1 hqin.1.1.2 hcellkey
            refine ⟨j, hjN,
              ⟨(astarComputeCost goal raw).set_parent pr.1, hpush, ?_, ?_, ?_⟩, ?_⟩
            · simpa using hcells.1
            · simpa using hcells.2
            · simpa using hgkey
            · intro j2 hj2 hj2N
              by_contra hcl
              rcases processChildren_closed_sources m.width goal pr.1
                (m.successors pr.1 cons) pr.2 cl _ hcl with h2 | ⟨raw2, hraw2, hkey2⟩
              · exact h2 (hsuffix j2 (by omega) hj2N)
              · obtain ⟨hrg2, -, -, -, -, -, -⟩ := mem_successors_elim hraw2
                have hqg2 := path_getD_g m cons q0 qs hfeas j2 hj2N
                have hqgj := path_getD_g m cons q0 qs hfeas j hjN
                unfold hashKey at hkey2
                simp only [Prod.mk.injEq] at hkey2
                have hgc : ((q0 :: qs).getD j2 dflt).g = raw2.g := hkey2.2
                omega
          · rcases popMin_cover (show popMin op = some (pr.1, pr.2) by rw [hpop]) w hwop
              with hwnode | hwrest
            · exfalso
              have hiltN : i < qs.length := by
                rcases Nat.lt_or_ge i qs.length with h1 | h1
                · exact h1
                · exfalso
                  have hieq : i = qs.length := by omega
                  subst hieq
                  rw [path_getD_last q0 qs] at hwx hwy
                  apply hg
                  unfold State.is_goal
                  unfold State.is_goal at hgoal
                  simp only [Bool.and_eq_true, beq_iff_eq] at hgoal ⊢
                  rw [hwnode] at hwx hwy
                  exact ⟨hwx.trans hgoal.1, hwy.trans hgoal.2⟩
              have hstep := feasSteps_getD_step m cons qs q0 hfeas i hiltN
              obtain ⟨hadj, hg1, hin1, hbl1, hcn1⟩ := hstep
              rw [hwnode] at hwx hwy hwg
              have hadj2 : ((qs.getD i dflt).x - pr.1.x).natAbs +
                  ((qs.getD i dflt).y - pr.1.y).natAbs ≤ 1 := by
                rw [hwx, hwy]
                exact hadj
              have hg2 : (qs.getD i dflt).g = pr.1.g + 1 := by
                rw [hwg]
                exact hg1
              have hcn2 : constrainedAt cons ((qs.getD i dflt).x, (qs.getD i dflt).y)
                  (pr.1.g + 1) = false := by
                rw [← hg2]
                exact hcn1
              have hintro := mem_successors_intro pr.1 (qs.getD i dflt)
                hadj2 hg2 hin1 hbl1 hcn2
              apply hmatch
              refine ⟨i + 1, by omega, by omega,
                (State.init (qs.getD i dflt).x (qs.getD i dflt).y).set_g (pr.1.g + 1),
                hintro, ?_⟩
              unfold hashKey
              have hidx : (q0 :: qs).getD (i + 1) dflt = qs.getD i dflt := by simp
              rw [hidx]
              simp only [State.set_g_x, State.set_g_y, State.set_g_g, State.init,
                State.x_mk, State.y_mk, Prod.mk.injEq]
              exact ⟨trivial, hg2.symm⟩
            · refine ⟨i, hiN,
                ⟨w, processChildren_open_sub m.width goal pr.1 (m.successors pr.1 cons)
                  pr.2 cl w hwrest, hwx, hwy, hwg⟩, ?_⟩
              intro j hj hjN
              by_contra hcl
              rcases processChildren_closed_sources m.width goal pr.1
                (m.successors pr.1 cons) pr.2 cl _ hcl with h2 | ⟨raw2, hraw2, hkey2⟩
              · exact h2 (hsuffix j hj hjN)
              · exact hmatch ⟨j, hj, hjN, raw2, hraw2, hkey2.symm⟩

/-- The search result never exceeds the cost of any feasible chain that
starts at the start coordinates and ends on the goal cell. -/
theorem astar_le_feasible (m : GridMap) (ol : List State) (clv : Closed)
    (fuel : Nat) (start goal : State) (cons : Cons) (q0 : State)
    (qs : List State) (hq0x : q0.x = start.x) (hq0y : q0.y = start.y)
    (hq0g : q0.g = start.g) (hfeas : FeasSteps m cons q0 qs)
    (hgoal : (qs.getLastD q0).is_goal goal = true) (c : Int)
    (r : Option (List State))
    (h : AStar.search m ol clv fuel start goal cons = some (c, r)) :
    c ≤ (q0.g : Int) + qs.length := by
  have heq : AStar.search m ol clv fuel start goal cons =
      astarLoop m goal cons fuel [astarComputeCost goal start]
        (closedInsert [] (hashKey m.width (astarComputeCost goal start))
          (astarComputeCost goal start)) := rfl
  rw [heq] at h
  refine astarLoop_opt m goal cons q0 qs hfeas hgoal fuel _ _ c r ?_ ?_ h
  · intro w hw
    simp only [List.mem_singleton] at hw
    rw [hw, astarComputeCost_cost, astarComputeCost_g]
    congr 1
    exact get_heuristic_congr _ _ _ (astarComputeCost_x goal start).symm
      (astarComputeCost_y goal start).symm
  · refine ⟨0, Nat.zero_le _, ⟨astarComputeCost goal start, ?_, ?_, ?_, ?_⟩, ?_⟩
    · simp
    · simp only [List.getD_cons_zero, astarComputeCost_x]
      exact hq0x.symm
    · simp only [List.getD_cons_zero, astarComputeCost_y]
      exact hq0y.symm
    · simp only [List.getD_cons_zero, astarComputeCost_g]
      exact hq0g.symm
    · intro j hj hjN
      have hqg := path_getD_g m cons q0 qs hfeas j hjN
      have hne : hashKey m.width ((q0 :: qs).getD j dflt) ≠
          hashKey m.width (astarComputeCost goal start) := by
        intro hk
        have h2 := congrArg Prod.snd hk
        simp only [hashKey, astarComputeCost_g] at h2
        omega
      rw [closedLookup_insert_ne [] _ _ _ hne]
      rfl

/-- Soundness corollary of the search: a successful run that returns a path
travelled a feasible chain from the f-valued start to the goal cell whose
length is the returned cost. -/
theorem astar_search_feas (m : GridMap) (ol : List State) (clv : Closed)
    (fuel : Nat) (start goal : State) (cons : Cons) (hpar : start.parent = none)
    (c : Int) (p : List State)
    (h : AStar.search m ol clv fuel start goal cons = some (c, some p)) :
    ∃ rest : List State, FeasSteps m cons (astarComputeCost goal start) rest ∧
      (rest.getLastD (astarComputeCost goal start)).is_goal goal = true ∧
      c = ((astarComputeCost goal start).g : Int) + rest.length := by
  have hsr2 : astarLoop m goal cons fuel
      (heappush [] (astarComputeCost goal start))
      (closedInsert [] (hashKey m.width (astarComputeCost goal start))
        (astarComputeCost goal start)) = some (c, some p) := h
  have hpar1 : (astarComputeCost goal start).parent = none := by
    rw [astarComputeCost_parent]; exact hpar
  have hsound := astarLoop_sound m goal cons (astarComputeCost goal start) fuel
    _ _ c (some p) (by
      intro w hw
      rcases mem_heappush hw with hw | hw
      · rw [hw]; exact GoodNode.base
      · simp at hw) hsr2
  obtain ⟨n, hgood, hpn, hc, hgl⟩ := hsound.2 p rfl
  obtain ⟨rest, hrp, hfs, hng, hlast⟩ :=
    goodnode_chain m cons goal (astarComputeCost goal start) hpar1 n hgood
  refine ⟨rest, hfs, ?_, ?_⟩
  · rw [hlast]; exact hgl
  · rw [hc, hng]; push_cast; ring

/-- Monotonicity of the search cost in the constraint table: when the table
only grows, a successful run under the larger table costs at least as much
as the run under the smaller one. -/
theorem astar_cost_mono (m : GridMap) (olP olC : List State) (clP clC : Closed)
    (fuelP fuelC : Nat) (start goal : State) (consP consC : Cons)
    (hpar : start.parent = none)
    (hmono : ∀ pos t, constrainedAt consP pos t = true →
      constrainedAt consC pos t = true)
    (cP cC : Int) (rP : Option (List State)) (pC : List State)
    (hP : AStar.search m olP clP fuelP start goal consP = some (cP, rP))
    (hC : AStar.search m olC clC fuelC start goal consC = some (cC, some pC)) :
    cP ≤ cC := by
  obtain ⟨rest, hfeas, hlast, hcc⟩ :=
    astar_search_feas m olC clC fuelC start goal consC hpar cC pC hC
  have hfeasP : FeasSteps m consP (astarComputeCost goal start) rest :=
    feasSteps_mono m consP consC hmono rest _ hfeas
  have hb := astar_le_feasible m olP clP fuelP start goal consP
    (astarComputeCost goal start) rest (astarComputeCost_x goal start)
    (astarComputeCost_y goal start) (astarComputeCost_g goal start)
    hfeasP hlast cP rP hP
  rw [hcc]
  exact hb

/-- A pointwise bound between two equally long integer lists bounds the sums. -/
theorem sum_getD_le : ∀ (l1 l2 : List Int), l1.length = l2.length →
    (∀ j, j < l1.length → l1.getD j 0 ≤ l2.getD j 0) → l1.sum ≤ l2.sum := by
  intro l1
  induction l1 with
  | nil =>
    intro l2 hlen hpt
    have h2 : l2 = [] := List.eq_nil_of_length_eq_zero hlen.symm
    rw [h2]
  | cons a rest ih =>
    intro l2 hlen hpt
    cases l2 with
    | nil => simp at hlen
    | cons b rest2 =>
      simp only [List.length_cons] at hlen
      have h0 := hpt 0 (by simp)
      simp only [List.getD_cons_zero] at h0
      have htail := ih rest2 (by omega) (by
        intro j hj
        have h1 := hpt (j + 1) (by simp only [List.length_cons]; omega)
        simpa using h1)
      simp only [List.sum_cons]
      omega

/-- Every child the branching step can produce is a branchChild of the
node. -/
theorem successors_ok_shape (st : CBSState) (l : List CBSState)
    (h : st.successors = .ok l) :
    ∀ Q ∈ l, ∃ cs ct a, Q = branchChild st cs ct a := by
  unfold CBSState.successors at h
  cases hsol : st.is_solution with
  | fuelOut => rw [hsol] at h; exact Res.noConfusion h
  | err => rw [hsol] at h; exact Res.noConfusion h
  | ok pr =>
    rw [hsol] at h
    obtain ⟨valid, conf⟩ := pr
    dsimp only at h
    cases conf with
    | none =>
      cases valid with
      | true => injection h with h2; rw [← h2]; intro Q hQ; simp at hQ
      | false => injection h with h2; rw [← h2]; intro Q hQ; simp at hQ
    | some pr2 =>
      obtain ⟨cs, ct⟩ := pr2
      cases valid with
      | true => injection h with h2; rw [← h2]; intro Q hQ; simp at hQ
      | false =>
        dsimp only at h
        cases hex : st.extracted with
        | none => rw [hex] at h; exact Res.noConfusion h
        | some ps =>
          rw [hex] at h
          dsimp only at h
          by_cases h2a : 2 ≤ (conflictAgents st ps cs ct).length
          · rw [if_pos h2a] at h
            injection h with h2
            rw [← h2]
            intro Q hQ
            simp only [List.mem_cons, List.not_mem_nil, or_false] at hQ
            rcases hQ with hQ | hQ
            · exact ⟨cs, ct, _, hQ⟩
            · exact ⟨cs, ct, _, hQ⟩
          · rw [if_neg h2a] at h
            injection h with h2
            rw [← h2]
            intro Q hQ
            simp at hQ

/-- Field-level description of a branched child: cost reset to zero, same
problem data, agent count from the start list, the parent tables with the
conflict added for the chosen agent, and no paths. -/
theorem branchChild_fields (st : CBSState) (cs : State) (ct : Nat) (a : Nat) :
    (branchChild st cs ct a).cost = 0 ∧
    (branchChild st cs ct a).map = st.map ∧
    (branchChild st cs ct a).starts = st.starts ∧
    (branchChild st cs ct a).goals = st.goals ∧
    (branchChild st cs ct a).k = st.starts.length ∧
    (branchChild st cs ct a).constraints =
      st.constraints.modify (fun ac => consAdd ac (cs.x, cs.y) ct) a :=
  ⟨rfl, rfl, rfl, rfl, rfl, rfl⟩

/-- The per-agent table of a child only grows: every constraint of the table
at any index survives the modification of the chosen agent's table. -/
theorem constraints_modify_getD_mono (L : List Cons) (pos2 : Int × Int)
    (t2 a j : Nat) (pos : Int × Int) (t : Nat)
    (h : constrainedAt (L.getD j []) pos t = true) :
    constrainedAt ((L.modify (fun ac => consAdd ac pos2 t2) a).getD j [])
      pos t = true := by
  rw [getD_modify]
  by_cases hc : a = j ∧ j < L.length
  · rw [if_pos hc]
    exact constrainedAt_consAdd_mono _ pos2 t2 pos t h
  · rw [if_neg hc]
    exact h

/-- C3 (amended): for a node with cost zero, agent count equal to the number
of start states, and start states free of parent links, whose cost
computation succeeds, every child its successors method produces satisfies
child.cost >= parent.cost after the child's own cost computation — PROVIDED
the child computation returns a path for every agent.  Without that proviso
the claim fails: a failed per-agent search stores no path and folds a -1
into the child's total, which can drop below the parent's total. -/
theorem C3_amended_child_cost_monotone (fuelP fuelC : Nat)
    (P0 P Q Q2 : CBSState) (l : List CBSState)
    (hc0 : P0.cost = 0) (hk : P0.k = P0.starts.length)
    (hstarts : ∀ s ∈ P0.starts, s.parent = none)
    (hP : P0.compute_cost fuelP = .ok P)
    (hsucc : P.successors = .ok l) (hQ : Q ∈ l)
    (hC : Q.compute_cost fuelC = .ok Q2)
    (hall : none ∉ Q2.paths) :
    P.cost ≤ Q2.cost := by
  unfold CBSState.compute_cost at hP
  cases hccP : computeCostGo fuelP P0.map P0.starts P0.goals P0.constraints P0.k 0
      P0.cost [] with
  | fuelOut => rw [hccP] at hP; exact Res.noConfusion hP
  | err => rw [hccP] at hP; exact Res.noConfusion hP
  | ok prP =>
    rw [hccP] at hP
    obtain ⟨cP, psP⟩ := prP
    dsimp only at hP
    injection hP with hPeq
    subst hPeq
    obtain ⟨cs, ct, a, hQb⟩ := successors_ok_shape _ l hsucc Q hQ
    subst hQb
    unfold CBSState.compute_cost at hC
    have hccC2 :
        (match computeCostGo fuelC P0.map P0.starts P0.goals
            (P0.constraints.modify (fun ac => consAdd ac (cs.x, cs.y) ct) a)
            P0.starts.length 0 0 [] with
          | .ok (c, ps) =>
            Res.ok { branchChild { P0 with cost := cP, paths := psP } cs ct a with
                      cost := c, paths := ps }
          | .fuelOut => (.fuelOut : Res CBSState)
          | .err => .err) = .ok Q2 := hC
    cases hccC : computeCostGo fuelC P0.map P0.starts P0.goals
        (P0.constraints.modify (fun ac => consAdd ac (cs.x, cs.y) ct) a)
        P0.starts.length 0 0 [] with
    | fuelOut => rw [hccC] at hccC2; exact Res.noConfusion hccC2
    | err => rw [hccC] at hccC2; exact Res.noConfusion hccC2
    | ok prC =>
      rw [hccC] at hccC2
      obtain ⟨cC, psC⟩ := prC
      dsimp only at hccC2
      injection hccC2 with hCeq
      subst hCeq
      show cP ≤ cC
      obtain ⟨resP, hlenP, hresP, hsumP, hpsP⟩ :=
        computeCostGo_ok_results fuelP P0.map P0.starts P0.goals P0.constraints
          P0.k 0 P0.cost [] cP psP hccP
      obtain ⟨resC, hlenC, hresC, hsumC, hpsC⟩ :=
        computeCostGo_ok_results fuelC P0.map P0.starts P0.goals
          (P0.constraints.modify (fun ac => consAdd ac (cs.x, cs.y) ct) a)
          P0.starts.length 0 0 [] cC psC hccC
      rw [List.nil_append] at hpsC
      have hall2 : none ∉ psC := hall
      rw [hsumP, hsumC, hc0]
      simp only [zero_add]
      apply sum_getD_le
      · simp only [List.length_map]
        rw [hlenP, hlenC, hk]
      · intro j hj
        have hjP : j < resP.length := by simpa using hj
        have hjk : j < P0.k := by rw [← hlenP]; exact hjP
        have hjk2 : j < P0.starts.length := by rw [← hk]; exact hjk
        have hjC : j < resC.length := by rw [hlenC]; exact hjk2
        have hPj := hresP j hjk
        have hCj := hresC j hjk2
        simp only [Nat.zero_add] at hPj hCj
        have hmemC : (resC.getD j (0, none)).2 ∈ resC.map Prod.snd := by
          rw [List.getD_eq_getElem resC (0, none) hjC]
          exact List.mem_map_of_mem Prod.snd (List.getElem_mem hjC)
        rw [← hpsC] at hmemC
        obtain ⟨pc, hpc⟩ : ∃ pc, (resC.getD j (0, none)).2 = some pc := by
          cases hx : (resC.getD j (0, none)).2 with
          | none => exact absurd (hx ▸ hmemC) hall2
          | some pc => exact ⟨pc, rfl⟩
        have hparj : (P0.starts.getD j (State.init 0 0)).parent = none := by
          rw [List.getD_eq_getElem P0.starts (State.init 0 0) hjk2]
          exact hstarts _ (List.getElem_mem hjk2)
        have hCj2 : AStar.search P0.map [] [] fuelC
            (P0.starts.getD j (State.init 0 0)) (P0.goals.getD j (State.init 0 0))
            ((P0.constraints.modify (fun ac => consAdd ac (cs.x, cs.y) ct) a).getD j [])
            = some ((resC.getD j (0, none)).1, some pc) := by
          rw [hCj, ← hpc]
        have hle := astar_cost_mono P0.map [] [] [] [] fuelP fuelC
          (P0.starts.getD j (State.init 0 0)) (P0.goals.getD j (State.init 0 0))
          (P0.constraints.getD j [])
          ((P0.constraints.modify (fun ac => consAdd ac (cs.x, cs.y) ct) a).getD j [])
          hparj
          (fun pos t h => constraints_modify_getD_mono P0.constraints (cs.x, cs.y)
            ct a j pos t h)
          (resP.getD j (0, none)).1 (resC.getD j (0, none)).1
          (resP.getD j (0, none)).2 pc hPj hCj2
        have e1 : (resP.map Prod.fst).getD j 0 = (resP.getD j (0, none)).1 := by
          rw [List.getD_eq_getElem (resP.map Prod.fst) 0 (by simpa using hjP),
            List.getElem_map, List.getD_eq_getElem resP (0, none) hjP]
        have e2 : (resC.map Prod.fst).getD j 0 = (resC.getD j (0, none)).1 := by
          rw [List.getD_eq_getElem (resC.map Prod.fst) 0 (by simpa using hjC),
            List.getElem_map, List.getD_eq_getElem resC (0, none) hjC]
        rw [e1, e2]
        exact hle

/-- Parent node of the C3 counterexample: two agents swapping ends of an
open two-cell corridor, with an extra table entry forbidding agent 0 the
cell (1,0) at timestep 1. -/
def c3p : CBSState :=
  (CBSState.init map2x1 [State.init 0 0, State.init 1 0]
    [State.init 1 0, State.init 0 0]).set_constraint (State.init 1 0) 1 0

/-- Counterexample to C3: on the two-cell swap instance the computed parent
node costs 3, but branching walls agent 0 in completely, so its search in
the first child fails and folds a -1 into the sum: the child's computed cost
is 0, strictly below the parent's. -/
theorem C3_counterexample_child_cost_drops :
    ∃ (P c1 c2 Q2 : CBSState),
      c3p.compute_cost 30 = .ok P ∧ P.successors = .ok [c1, c2] ∧
      c1.compute_cost 30 = .ok Q2 ∧ Q2.cost < P.cost :=
  ⟨_, _, _, _, rfl, rfl, rfl, by decide⟩

/-- Witness for C3 (amended) at the head-on three-cell corridor: the parent
computes cost 4, each child search still succeeds for every agent, and the
theorem applied to the first child bounds the parent cost by the child
cost. -/
theorem C3_amended_witness :
    ∃ (P c1 c2 Q2 : CBSState),
      w3base.compute_cost 40 = .ok P ∧ P.successors = .ok [c1, c2] ∧
      c1.compute_cost 40 = .ok Q2 ∧ none ∉ Q2.paths ∧ P.cost ≤ Q2.cost := by
  refine ⟨_, _, _, _, rfl, rfl, rfl, by decide, ?_⟩
  exact C3_amended_child_cost_monotone 40 40 w3base _ _ _ _ rfl rfl
    (by decide) rfl rfl (List.mem_cons_self _ _) rfl (by decide)

end Mapf
